
import Mathlib

/-!
Verification of the logrange read path: the cursor position encoding
(`collectPos` / `applyStatePos` / `applyCornerPos` in `pkg/cursor/cursor.go`),
the tournament merge construction of `newCursor`, and the file-descriptor
pool (`FdPool` in `pkg/chunkfs`).

Go strings are embedded as `List Char`; Go maps used for per-journal data are
embedded as association lists in a fixed iteration order.  Machine integers
(uint64/uint32/int64) are embedded as `Nat`/`Int` with explicit bounds where
they matter.
-/

namespace Logrange

/-- A Go string, embedded as its character sequence. -/
abbrev Str := List Char

/-- Embed a Lean string literal as a `Str`. -/
def strOf (s : String) : Str := s.data

/-- Embedding of Go `strings.Split(s, sep)` for a one-character separator
`sep`: splits `s` on every occurrence of `sep`; the empty string splits to
`[""]`. -/
def splitOnChar (sep : Char) : Str → List Str
  | [] => [[]]
  | c :: cs =>
    if c = sep then [] :: splitOnChar sep cs
    else
      match splitOnChar sep cs with
      | [] => [[c]]
      | t :: ts => (c :: t) :: ts

/-! ### Hexadecimal encoding of journal positions

`journal.Pos.String()` / `journal.ParsePos` live in the external
`logrange/range` package; the spec fixes their grammar:
`JournalPos := hex(ChunkId) "." hex(Idx)` with the tail sentinel printed as
`FFFFFFFFFFFFFFFF.FFFFFFFF` (fixed-width upper-case hex). -/

/-- Upper-case hex digit for a value `n < 16`. -/
def hexChar (n : Nat) : Char :=
  if n < 10 then Char.ofNat (48 + n) else Char.ofNat (55 + n)

/-- Value of a hex digit character; accepts both cases, as Go's
`strconv.ParseUint` does. -/
def hexVal (c : Char) : Option Nat :=
  if 48 ≤ c.toNat ∧ c.toNat ≤ 57 then some (c.toNat - 48)
  else if 65 ≤ c.toNat ∧ c.toNat ≤ 70 then some (c.toNat - 55)
  else if 97 ≤ c.toNat ∧ c.toNat ≤ 102 then some (c.toNat - 87)
  else none

/-- Fixed-width big-endian hex rendering: `toHexFix w n` is the `w` least
significant hex digits of `n`, zero padded. -/
def toHexFix : Nat → Nat → Str
  | 0, _ => []
  | w + 1, n => toHexFix w (n / 16) ++ [hexChar (n % 16)]

/-- Hex parser accumulator: `parseHexAux cs a` folds the digits of `cs` onto
the accumulated value `a`, failing on a non-hex character. -/
def parseHexAux : Str → Nat → Option Nat
  | [], a => some a
  | c :: cs, a =>
    match hexVal c with
    | some v => parseHexAux cs (a * 16 + v)
    | none => none

/-- Parse a hex numeral; the empty string is rejected, as `strconv.ParseUint`
rejects it. -/
def parseHex (l : Str) : Option Nat :=
  match l with
  | [] => none
  | _ :: _ => parseHexAux l 0

/-! ### Journal positions and the cursor data model (`pkg/cursor/cursor.go`) -/

/-- Embedding of `journal.Pos`: a record address `(ChunkId, Idx)` within a
journal.  `CId` is a uint64 and `Idx` a uint32 in the source; bounds are
carried as explicit hypotheses where they matter. -/
structure JournalPos where
  CId : Nat
  Idx : Nat
deriving DecidableEq, Repr

/-- Modelled from the spec: `journal.Pos.String()` of the external
`logrange/range` package renders a position as fixed-width upper-case hex
`hex(ChunkId) "." hex(Idx)` (the tail sentinel prints as
`FFFFFFFFFFFFFFFF.FFFFFFFF`). -/
def posToString (p : JournalPos) : Str :=
  toHexFix 16 p.CId ++ '.' :: toHexFix 8 p.Idx

/-- Modelled from the spec: `journal.ParsePos` of the external
`logrange/range` package parses `hex(ChunkId) "." hex(Idx)`, rejecting
malformed input and values exceeding uint64/uint32. -/
def parsePos (s : Str) : Option JournalPos :=
  match splitOnChar '.' s with
  | [a, b] =>
    match parseHex a, parseHex b with
    | some va, some vb =>
      if va < 2 ^ 64 ∧ vb < 2 ^ 32 then some ⟨va, vb⟩ else none
    | _, _ => none
  | _ => none

/-- Embedding of `cursor.State`. -/
structure State where
  Id : Nat
  Sources : Str
  Where : Str
  Pos : Str
deriving DecidableEq, Repr

/-- Embedding of `jrnlDesc`: the cursor's per-journal descriptor.  The
underlying `journal.Iterator` (external `logrange/range` package) is modelled
by its logical position `itPos` plus two flags: `pending` (modelled from the
spec: `next` may lazy-evaluate, deferring the advance to the following `get`)
and `released` (the iterator's reader has been given back to the pool). -/
structure JrnlDesc where
  tags : Str
  itPos : JournalPos
  pending : Bool
  released : Bool
deriving DecidableEq, Repr

/-- Embedding of `Cursor`: the state plus the journal descriptors.  The Go
`jDescs` map is embedded as an association list keyed by journal id, in a
fixed iteration order. -/
structure Cursor where
  state : State
  jDescs : List (Str × JrnlDesc)
deriving DecidableEq, Repr

/-- Association-list lookup (embeds Go map lookup; entries consed at the
head shadow earlier ones, matching Go map overwrite semantics). -/
def alookup {κ α : Type} [DecidableEq κ] : List (κ × α) → κ → Option α
  | [], _ => none
  | (k, v) :: rest, j => if k = j then some v else alookup rest j

/-- `SetPos` on every journal iterator of the cursor (the loop at the end of
`applyCornerPos`). -/
def setAllPos (cur : Cursor) (p : JournalPos) : Cursor :=
  { cur with jDescs := cur.jDescs.map (fun q => (q.1, { q.2 with itPos := p })) }

/-- The `tail` sentinel `(0xFFFFFFFFFFFFFFFF, 0xFFFFFFFF)`. -/
def tailPos : JournalPos := ⟨0xFFFFFFFFFFFFFFFF, 0xFFFFFFFF⟩

/-- Embedding of `Cursor.applyCornerPos`: lower-cases the position string;
`"tail"` seeks all iterators to the tail sentinel, `"head"` and `""` to
`(0, 0)`, anything else is not a corner position (returns `false`, touching
no iterator). -/
def applyCornerPos (cur : Cursor) (pstr : Str) : Bool × Cursor :=
  let ps := pstr.map Char.toLower
  if ps = strOf "tail" then (true, setAllPos cur tailPos)
  else if ps = strOf "head" then (true, setAllPos cur ⟨0, 0⟩)
  else if ps = [] then (true, setAllPos cur ⟨0, 0⟩)
  else (false, cur)

/-- Embedding of the parse loop of `Cursor.applyStatePos`: each `:`-separated
entry must split on `=` into exactly two parts, the second parsing as a
`journal.Pos`; entries accumulate into the map `m` (consed, so later entries
shadow earlier ones as in a Go map). -/
def parseEntries : List Str → List (Str × JournalPos) →
    Except Str (List (Str × JournalPos))
  | [], m => .ok m
  | v :: vs, m =>
    match splitOnChar '=' v with
    | [k, pv] =>
      match parsePos pv with
      | some p => parseEntries vs ((k, p) :: m)
      | none => .error (strOf "Could not parse pos to journal.Pos")
    | _ => .error (strOf "value doesn't look like journal pos")

/-- Embedding of the apply loop of `Cursor.applyStatePos`: every journal of
the cursor that appears in the parsed map is sought to the parsed position;
map entries naming unknown journals have no effect. -/
def setPosMap (m : List (Str × JournalPos)) (jds : List (Str × JrnlDesc)) :
    List (Str × JrnlDesc) :=
  jds.map (fun q =>
    match alookup m q.1 with
    | some p => (q.1, { q.2 with itPos := p })
    | none => q)

/-- `applyStatePos`'s seek loop, per descriptor: a journal mentioned in the
parsed map is seeked to the parsed position, an unmentioned one is left at
its current position. -/
def jdApply (m : List (Str × JournalPos)) (j : Str) (jd : JrnlDesc) : JrnlDesc :=
  match alookup m j with
  | some p => { jd with itPos := p }
  | none => jd

/-- Embedding of `Cursor.applyStatePos`: splits `state.Pos` on `:`, parses
every entry (failing atomically on the first malformed one), then seeks the
mentioned journals. -/
def applyStatePos (cur : Cursor) : Except Str Cursor :=
  match parseEntries (splitOnChar ':' cur.state.Pos) [] with
  | .error e => .error e
  | .ok m => .ok { cur with jDescs := setPosMap m cur.jDescs }

/-- Embedding of `Cursor.applyPos` (used at construction): corner positions
are applied directly, anything else goes through `applyStatePos`. -/
def applyPos (cur : Cursor) : Except Str Cursor :=
  let r := applyCornerPos cur cur.state.Pos
  if r.1 then .ok r.2 else applyStatePos cur

/-- Embedding of `Cursor.ApplyState`.  The pair mirrors the Go mutation: the
second component is the cursor after the call (unchanged whenever an error is
returned, since the Go code restores the previous `Pos` on failure and fails
before any mutation on a state mismatch). -/
def ApplyState (cur : Cursor) (st : State) : Except Str Unit × Cursor :=
  if cur.state.Where ≠ st.Where ∨ cur.state.Sources ≠ st.Sources ∨
      cur.state.Id ≠ st.Id then
    (.error (strOf "Could not apply state to the current cursor state"), cur)
  else if cur.state.Pos ≠ st.Pos then
    match applyStatePos { cur with state := { cur.state with Pos := st.Pos } } with
    | .ok c2 => (.ok (), c2)
    | .error e => (.error e, cur)
  else (.ok (), cur)

/-- Modelled from the spec: advancing a journal iterator by one record moves
to the next record slot of the current chunk. -/
def nextJPos (p : JournalPos) : JournalPos := { p with Idx := p.Idx + 1 }

/-- Modelled from the spec: `get` on a journal iterator resolves a pending
lazy `next`, so the reported position is the one after the last delivered
record. -/
def resolveJD (jd : JrnlDesc) : JrnlDesc :=
  if jd.pending then { jd with itPos := nextJPos jd.itPos, pending := false }
  else jd

/-- Modelled from the spec: `Cursor.Get` peeks the merged iterator, whose
`get` lazily peeks all children, resolving every pending lazy advance. -/
def cursorGet (cur : Cursor) : Cursor :=
  { cur with jDescs := cur.jDescs.map (fun q => (q.1, resolveJD q.2)) }

/-- One `jn=pos` entry of the committed position string. -/
def collectEntry (j : Str) (jd : JrnlDesc) : Str :=
  j ++ '=' :: posToString jd.itPos

/-- Embedding of the string built by `Cursor.collectPos`: the `jn=pos`
entries joined by `:` in descriptor-iteration order. -/
def collectPosStr : List (Str × JrnlDesc) → Str
  | [] => []
  | [q] => collectEntry q.1 q.2
  | q :: rest => collectEntry q.1 q.2 ++ ':' :: collectPosStr rest

/-- The `Release` calls `collectPos` performs on every journal iterator. -/
def releaseAllJDs (cur : Cursor) : Cursor :=
  { cur with jDescs := cur.jDescs.map (fun q => (q.1, { q.2 with released := true })) }

/-- Embedding of `Cursor.commit`: one `Get` to resolve any pending lazy
advance, then `collectPos` (which materialises the position string and
releases every journal iterator); the updated state is returned. -/
def commit (cur : Cursor) : State × Cursor :=
  let c1 := cursorGet cur
  let pos := collectPosStr c1.jDescs
  let c2 := releaseAllJDs { c1 with state := { c1.state with Pos := pos } }
  (c2.state, c2)

/-! ### Merged iterator and `newCursor` (`pkg/cursor/cursor.go`)

`model.Iterator`, `model.Mixer`, `model.GetEarliest` and
`model.LogEventIterator` belong to `pkg/model` of this repository, which is
not among the provided sources; they are modelled from the spec.  An iterator
is embedded by the stream of records it would deliver through successive
`Get`/`Next` calls. -/

/-- Embedding of `model.LogEvent` (the fields the claims need). -/
structure LogEvent where
  ts : Int
  msg : Str
deriving DecidableEq, Repr

/-- A raw record of one journal: event plus its journal position. -/
structure JRec where
  ev : LogEvent
  rpos : JournalPos
deriving DecidableEq, Repr

/-- A record as delivered by an iterator wrapped with its source tag line. -/
structure Rec where
  ev : LogEvent
  tags : Str
  rpos : JournalPos
deriving DecidableEq, Repr

/-- Modelled from the spec: `model.LogEventIterator.Wrap` attaches the
journal's tag line to every record of the journal iterator. -/
def wrapTags (tags : Str) (l : List JRec) : List Rec :=
  l.map (fun r => ⟨r.ev, tags, r.rpos⟩)

/-- Lexicographic strict order on strings. -/
def strLtB : Str → Str → Bool
  | [], [] => false
  | [], _ :: _ => true
  | _ :: _, [] => false
  | a :: as, b :: bs =>
    if a < b then true else if b < a then false else strLtB as bs

/-- Non-strict lexicographic order on journal positions `(CId, Idx)`. -/
def posLeB (a b : JournalPos) : Bool :=
  decide (a.CId < b.CId) ||
    (decide (a.CId = b.CId) && decide (a.Idx ≤ b.Idx))

/-- Modelled from the spec: the `model.GetEarliest` comparator chooses the
record with the smaller `ts`, ties broken by smaller `TagLine` then smaller
`JournalPos`; on a full tie the left (first) record is chosen. -/
def getEarliest (a b : Rec) : Bool :=
  decide (a.ev.ts < b.ev.ts) ||
    (decide (a.ev.ts = b.ev.ts) &&
      (strLtB a.tags b.tags ||
        (decide (a.tags = b.tags) && posLeB a.rpos b.rpos)))

/-- Modelled from the spec: a 2-way `model.Mixer` lazily peeks both children
and emits the record its comparator selects, advancing only the winner; when
one child is exhausted it passes the other through.  On streams this is the
comparator-driven merge. -/
def mixRecs : List Rec → List Rec → List Rec
  | [], ys => ys
  | x :: xs, [] => x :: xs
  | x :: xs, y :: ys =>
    if getEarliest x y then x :: mixRecs xs (y :: ys)
    else y :: mixRecs (x :: xs) ys

/-- One pass of the mixing loop of `newCursor`: adjacent iterators are paired
into mixers (`mxs[i/2] = Mixer(mxs[i], mxs[i+1])`); with an odd count the
unpaired last iterator is promoted one level up
(`mxs[len(mxs)/2] = mxs[len(mxs)-1]`). -/
def pairUp : List (List Rec) → List (List Rec)
  | a :: b :: rest => mixRecs a b :: pairUp rest
  | l => l

/-- Length bound on one pairing pass, needed for the termination of the
reduction loop. -/
def pairUpLenAux : ∀ l : List (List Rec), (pairUp l).length ≤ l.length
  | [] => Nat.le_refl _
  | [_] => Nat.le_refl _
  | a :: b :: rest => by
    have h := pairUpLenAux rest
    simp only [pairUp, List.length_cons]
    omega

/-- The `for len(mxs) > 1` reduction loop of `newCursor`: repeat the pairing
pass until a single root iterator remains. -/
def tourn : List (List Rec) → List Rec
  | [] => []
  | [x] => x
  | a :: b :: rest => tourn (mixRecs a b :: pairUp rest)
termination_by l => l.length
decreasing_by
  simp only [List.length_cons]
  have := pairUpLenAux rest
  omega

/-- Per-journal descriptors built by `newCursor` for the sources returned by
the tag index (`srcs` maps tag line to journal id); a fresh journal iterator
is positioned at head. -/
def mkDescs (srcs : List (Str × Str)) : List (Str × JrnlDesc) :=
  srcs.map (fun q => (q.2, ⟨q.1, ⟨0, 0⟩, false, false⟩))

/-- The source-count cap `cMaxSources` of `cursor.go`. -/
def cMaxSources : Nat := 50

/-- The distinct construction failures of `newCursor`. -/
inductive NewCurErr
  | parseErr (e : Str)
  | noSources
  | tooManySources
deriving DecidableEq, Repr

/-- Embedding of `newCursor`: `srcs` is the tag-index resolution of
`state.Sources` and `streams` gives each journal's record stream.
Construction fails when the set is empty or exceeds `cMaxSources`; a single
source bypasses the tournament (its iterator is the tag-line-wrapped journal
iterator); otherwise the iterators are mixed by the tournament loop.
Finally the state position is applied; on a parse failure no cursor is
returned. -/
def newCursor (st : State) (srcs : List (Str × Str))
    (streams : Str → List JRec) :
    Except NewCurErr (Cursor × List Rec) :=
  if srcs.length = 0 then .error .noSources
  else if cMaxSources < srcs.length then .error .tooManySources
  else
    let its := srcs.map (fun q => wrapTags q.1 (streams q.2))
    let it := if srcs.length = 1 then its.headD [] else tourn its
    let cur : Cursor := ⟨st, mkDescs srcs⟩
    match applyPos cur with
    | .ok c2 => .ok (c2, it)
    | .error e => .error (.parseErr e)

/-! ### File-descriptor pool (`pkg/chunkfs`)

`FdPool` manages `fReader`s grouped per client id.  The `fReader` type itself
is not among the provided sources; its state flags and methods (`isFree`,
`makeBusy`, `makeFree`, `close`, `distance`) are modelled from the spec.
Concurrent executions are embedded as sequences of atomic operations: each
operation is protected by the single pool mutex in the source, and an
`acquire` that would block on the permit channel is modelled as a `blocked`
outcome that leaves the pool unchanged (the waiter has not created anything
yet). -/

/-- Modelled from the spec: the `fReader` state flags
`free / busy / closing / closed`. -/
inductive FRState
  | free
  | busy
  | closing
  | closed
deriving DecidableEq, Repr

/-- Modelled from the spec: an `fReader` is a buffered file reader; the pool
logic depends only on its buffered read offset and its state flag. -/
structure FReader where
  pos : Int
  rstate : FRState
deriving DecidableEq, Repr

/-- Embedding of `frPool`: one journal's group of readers. -/
structure FrPool where
  fname : Str
  rdrs : List FReader
deriving DecidableEq, Repr

/-- Embedding of `FdPool`.  `sem` is the number of permits currently
available on the semaphore channel; `frs` is the registration map as an
association list keyed by client id. -/
structure FdPool where
  maxSize : Nat
  curSize : Int
  sem : Nat
  closed : Bool
  frs : List (Nat × FrPool)
deriving DecidableEq, Repr

/-- Modelled from the spec: the reader-selection distance
`|reader.pos - offset|`, computed on file offsets. -/
def distance (rpos off : Int) : Nat := (rpos - off).natAbs

/-- Update the first entry of an association list with the given key. -/
def aupdate {κ α : Type} [DecidableEq κ] :
    List (κ × α) → κ → (α → α) → List (κ × α)
  | [], _, _ => []
  | (k, v) :: rest, c, f =>
    if k = c then (k, f v) :: rest else (k, v) :: aupdate rest c f

/-- Remove the first entry of an association list with the given key. -/
def aremove {κ α : Type} [DecidableEq κ] : List (κ × α) → κ → List (κ × α)
  | [], _ => []
  | (k, v) :: rest, c => if k = c then rest else (k, v) :: aremove rest c

/-- Replace the element at an index, leaving the list unchanged when the
index is out of range. -/
def modifyNth {α : Type} (f : α → α) : Nat → List α → List α
  | _, [] => []
  | 0, x :: xs => f x :: xs
  | n + 1, x :: xs => x :: modifyNth f n xs

/-- The scanning loop of `frPool.getFree`: walk the reader list tracking the
best candidate as an optional `(index, distance)` pair; the first free reader
becomes the candidate unconditionally, later free readers replace it only
with a strictly smaller distance. -/
def getFreeAux (off : Int) : List FReader → Nat → Option (Nat × Nat) →
    Option (Nat × Nat)
  | [], _, best => best
  | fr :: rest, idx, best =>
    if fr.rstate = .free then
      match best with
      | none => getFreeAux off rest (idx + 1) (some (idx, distance fr.pos off))
      | some (ri, rd) =>
        let d := distance fr.pos off
        if d < rd then getFreeAux off rest (idx + 1) (some (idx, d))
        else getFreeAux off rest (idx + 1) (some (ri, rd))
    else getFreeAux off rest (idx + 1) best

/-- Embedding of `frPool.getFree` (as the selected index; the caller marks
the winner busy). -/
def getFreeIdx (rdrs : List FReader) (off : Int) : Option Nat :=
  (getFreeAux off rdrs 0 none).map Prod.fst

/-- The swap-removal loop of `frPool.cleanUp`: element `i` is skipped when
`all` is false and it is not free, otherwise it is closed and removed by
swapping the last element into its slot; returns the new list and the number
of closed readers. -/
def cleanUpLoop (all : Bool) (rdrs : List FReader) (i cnt : Nat) :
    List FReader × Nat :=
  if h : i < rdrs.length then
    let fr := rdrs.get ⟨i, h⟩
    if ¬all ∧ ¬fr.rstate = .free then cleanUpLoop all rdrs (i + 1) cnt
    else
      cleanUpLoop all
        ((rdrs.set i (rdrs.getD (rdrs.length - 1) ⟨0, .closed⟩)).dropLast)
        i (cnt + 1)
  else (rdrs, cnt)
termination_by rdrs.length - i
decreasing_by
  · omega
  · simp only [List.length_dropLast, List.length_set]
    omega

/-- Embedding of `frPool.cleanUp` on one reader group. -/
def frpCleanUp (all : Bool) (frp : FrPool) : FrPool × Nat :=
  let r := cleanUpLoop all frp.rdrs 0 0
  ({ frp with rdrs := r.1 }, r.2)

/-- Embedding of `FdPool.freeSem`: permits are only returned while the pool
is not closed. -/
def freeSem (fdp : FdPool) (cnt : Nat) : FdPool :=
  if fdp.closed then fdp else { fdp with sem := fdp.sem + cnt }

/-- The loop of `FdPool.clean` over all reader groups: clean every group,
summing the closed-reader counts; with `all` set the groups are also removed
from the registration map. -/
def cleanFrs (all : Bool) : List (Nat × FrPool) → List (Nat × FrPool) × Nat
  | [] => ([], 0)
  | (cid, frp) :: rest =>
    let r := frpCleanUp all frp
    let rr := cleanFrs all rest
    (if all then rr.1 else (cid, r.1) :: rr.1, r.2 + rr.2)

/-- Embedding of `FdPool.clean`: clean all groups, give the permits of the
closed readers back and decrement `curSize` accordingly. -/
def clean (fdp : FdPool) (all : Bool) : FdPool :=
  let r := cleanFrs all fdp.frs
  freeSem { fdp with frs := r.1, curSize := fdp.curSize - r.2 } r.2

/-- Embedding of `FdPool.register`: re-registering a client id is an error;
otherwise an empty reader group is associated with it. -/
def register (fdp : FdPool) (cid : Nat) (fname : Str) : Except Str FdPool :=
  match alookup fdp.frs cid with
  | some _ => .error (strOf "Oops the cid is already registered here!")
  | none => .ok { fdp with frs := fdp.frs ++ [(cid, ⟨fname, []⟩)] }

/-- The observable outcomes of `FdPool.acquire` in the sequential model. -/
inductive AcqRes
  | errWrongState
  | reader (cid idx : Nat)
  | created (cid : Nat)
  | blocked
deriving DecidableEq, Repr

/-- The `curSize` increment and conditional eviction performed by
`FdPool.acquire` after `getFree` found nothing. -/
def acquireMid (fdp : FdPool) : FdPool :=
  let fdp1 := { fdp with curSize := fdp.curSize + 1 }
  if (fdp1.maxSize : Int) ≤ fdp1.curSize then clean fdp1 false else fdp1

/-- Embedding of `FdPool.acquire`: refused when the pool is closed or the
client id is unknown; a free reader of the group is selected by `getFree` and
marked busy; otherwise a permit is consumed and a fresh reader (buffered
offset 0, per the spec's reader construction) is created busy
(`createAndUseFreader`), re-checking registration; with no permit available
the call blocks — modelled as a `blocked` outcome with `curSize` reverted, as
on the cancellation path. -/
def acquire (fdp : FdPool) (cid : Nat) (off : Int) : AcqRes × FdPool :=
  if fdp.closed then (.errWrongState, fdp)
  else
    match alookup fdp.frs cid with
    | none => (.errWrongState, fdp)
    | some frp =>
      match getFreeIdx frp.rdrs off with
      | some i =>
        let mk := fun (p : FrPool) =>
          { p with rdrs := modifyNth (fun fr => { fr with rstate := FRState.busy }) i p.rdrs }
        (.reader cid i, { fdp with frs := aupdate fdp.frs cid mk })
      | none =>
        let fdp2 := acquireMid fdp
        if 0 < fdp2.sem then
          match alookup fdp2.frs cid with
          | some _ =>
            (.created cid,
              { fdp2 with
                  sem := fdp2.sem - 1,
                  frs := aupdate fdp2.frs cid (fun p =>
                    { p with rdrs := p.rdrs ++ [⟨0, .busy⟩] }) })
          | none => (.errWrongState, { fdp2 with sem := fdp2.sem - 1 })
        else (.blocked, { fdp2 with curSize := fdp2.curSize - 1 })

/-- Embedding of `FdPool.release`, addressing the reader by its group and
index: a busy reader becomes free again (with eviction when the pool is at
capacity); a reader in any other state is physically closed. -/
def release (fdp : FdPool) (cid idx : Nat) : FdPool :=
  match alookup fdp.frs cid with
  | none => fdp
  | some frp =>
    if h : idx < frp.rdrs.length then
      if (frp.rdrs.get ⟨idx, h⟩).rstate = .busy then
        let mk := fun (p : FrPool) =>
          { p with rdrs := modifyNth (fun fr => { fr with rstate := FRState.free }) idx p.rdrs }
        let fdp1 := { fdp with frs := aupdate fdp.frs cid mk }
        if (fdp1.maxSize : Int) ≤ fdp1.curSize then clean fdp1 false else fdp1
      else
        let mk := fun (p : FrPool) =>
          { p with rdrs := modifyNth (fun fr => { fr with rstate := FRState.closed }) idx p.rdrs }
        { fdp with frs := aupdate fdp.frs cid mk }
    else fdp

/-- Embedding of `FdPool.releaseAllByCid`: close every reader of the group
(busy ones included), return their permits and drop the group. -/
def releaseAllByCid (fdp : FdPool) (cid : Nat) : FdPool :=
  match alookup fdp.frs cid with
  | none => fdp
  | some frp =>
    let r := frpCleanUp true frp
    freeSem
      { fdp with frs := aremove fdp.frs cid, curSize := fdp.curSize - r.2 }
      r.2

/-- Embedding of `FdPool.Close`: a second close is refused; otherwise the
closed flag is set first (so permits are no longer returned) and everything
is cleaned. -/
def Close (fdp : FdPool) : Except Str FdPool :=
  if fdp.closed then .error (strOf "wrong state")
  else .ok (clean { fdp with closed := true } true)

/-- Embedding of `NewFdPool` (which panics unless `maxSize` is positive):
all permits available, nothing registered. -/
def NewFdPool (maxSize : Nat) : FdPool :=
  { maxSize := maxSize, curSize := 0, sem := maxSize, closed := false, frs := [] }

/-- An atomic pool operation of the sequential concurrency model.
`cleanTick` is the periodic background cleaning task. -/
inductive FdOp
  | register (cid : Nat) (fname : Str)
  | acquire (cid : Nat) (off : Int)
  | release (cid idx : Nat)
  | releaseAll (cid : Nat)
  | close
  | cleanTick
deriving DecidableEq, Repr

/-- Effect of one operation on the pool (failed calls leave it unchanged). -/
def fdStep (fdp : FdPool) : FdOp → FdPool
  | .register cid fname =>
    match register fdp cid fname with
    | .ok f => f
    | .error _ => fdp
  | .acquire cid off => (acquire fdp cid off).2
  | .release cid idx => release fdp cid idx
  | .releaseAll cid => releaseAllByCid fdp cid
  | .close =>
    match Close fdp with
    | .ok f => f
    | .error _ => fdp
  | .cleanTick => clean fdp false

/-- Number of readers of a pool that are not physically closed. -/
def liveCount (fdp : FdPool) : Nat :=
  (fdp.frs.map (fun p =>
    (p.2.rdrs.filter (fun fr => fr.rstate ≠ FRState.closed)).length)).sum

/-- Total reader count of a registration map. -/
def totalLen (l : List (Nat × FrPool)) : Nat :=
  (l.map (fun p => p.2.rdrs.length)).sum

/-- Total number of readers held in the registration map. -/
def totalReaders (fdp : FdPool) : Nat := totalLen fdp.frs

/-- Front-recursive characterisation of the `getFree` scan: the winning
`(index, distance)` pair among the free readers — the head wins unless the
tail's winner is strictly closer. -/
def bestFree (off : Int) : List FReader → Option (Nat × Nat)
  | [] => none
  | fr :: rest =>
    if fr.rstate = .free then
      match bestFree off rest with
      | none => some (0, distance fr.pos off)
      | some (j, dj) =>
        if dj < distance fr.pos off then some (j + 1, dj)
        else some (0, distance fr.pos off)
    else (bestFree off rest).map (fun p => (p.1 + 1, p.2))

/-- The list of tag-line-wrapped journal iterators `newCursor` builds. -/
def cursorIts (srcs : List (Str × Str)) (streams : Str → List JRec) :
    List (List Rec) :=
  srcs.map (fun q => wrapTags q.1 (streams q.2))

/-- The stream of the iterator `newCursor` installs: the single wrapped
iterator for one source, the tournament of all of them otherwise. -/
def cursorMerged (srcs : List (Str × Str)) (streams : Str → List JRec) :
    List Rec :=
  if srcs.length = 1 then (cursorIts srcs streams).headD []
  else tourn (cursorIts srcs streams)

/-- The adjacent-pairwise ordering the merged iterator guarantees: every
record is `GetEarliest`-no-later than its successor. -/
def earliestOrdered (ms : List Rec) : Prop :=
  List.Chain' (fun a b => getEarliest a b = true) ms

/-- Executable form of `earliestOrdered`. -/
def earliestOrderedB : List Rec → Bool
  | [] => true
  | [_] => true
  | a :: b :: rest => getEarliest a b && earliestOrderedB (b :: rest)

/-- The inductive pool invariant: outside the closed state the readers in the
registration map and the available permits never exceed `maxSize` together;
once closed, no reader is left. -/
def FdInv (m : Nat) (fdp : FdPool) : Prop :=
  fdp.maxSize = m ∧
  (fdp.closed = false → totalReaders fdp + fdp.sem ≤ m) ∧
  (fdp.closed = true → totalReaders fdp = 0)

/-! ## Theorems -/

/-! ### String and hex lemmas -/

/-- `splitOnChar` never returns the empty list. -/
theorem splitOnChar_ne_nil (sep : Char) (l : Str) : splitOnChar sep l ≠ [] := by
  cases l with
  | nil => simp [splitOnChar]
  | cons c cs =>
    simp only [splitOnChar]
    split
    · simp
    · split <;> simp

/-- Splitting a string that contains no separator yields the string itself. -/
theorem splitOnChar_of_not_mem {sep : Char} {l : Str} (h : sep ∉ l) :
    splitOnChar sep l = [l] := by
  induction l with
  | nil => rfl
  | cons c cs ih =>
    simp only [List.mem_cons, not_or] at h
    simp only [splitOnChar]
    rw [if_neg (fun hc => h.1 hc.symm)]
    rw [ih h.2]

/-- Splitting around an explicit separator occurrence, when the prefix is
separator-free. -/
theorem splitOnChar_append {sep : Char} {a : Str} (b : Str) (h : sep ∉ a) :
    splitOnChar sep (a ++ sep :: b) = a :: splitOnChar sep b := by
  induction a with
  | nil => simp [splitOnChar]
  | cons c cs ih =>
    simp only [List.mem_cons, not_or] at h
    simp only [List.cons_append, splitOnChar]
    rw [if_neg (fun hc => h.1 hc.symm), List.append_eq, ih h.2]

theorem hexVal_hexChar {n : Nat} (h : n < 16) : hexVal (hexChar n) = some n := by
  interval_cases n <;> rfl

theorem hexChar_ne_sep {n : Nat} (h : n < 16) :
    hexChar n ≠ ':' ∧ hexChar n ≠ '=' ∧ hexChar n ≠ '.' := by
  interval_cases n <;> exact ⟨by decide, by decide, by decide⟩

theorem toHexFix_length (w n : Nat) : (toHexFix w n).length = w := by
  induction w generalizing n with
  | zero => rfl
  | succ w ih => simp [toHexFix, ih]

theorem toHexFix_mem_lt {w n : Nat} {c : Char} (h : c ∈ toHexFix w n) :
    ∃ m, m < 16 ∧ c = hexChar m := by
  induction w generalizing n with
  | zero => simp [toHexFix] at h
  | succ w ih =>
    simp only [toHexFix, List.mem_append, List.mem_singleton] at h
    rcases h with h | h
    · exact ih h
    · exact ⟨n % 16, Nat.mod_lt _ (by norm_num), h⟩

theorem parseHexAux_append (l₁ l₂ : Str) (a : Nat) :
    parseHexAux (l₁ ++ l₂) a =
      (parseHexAux l₁ a).bind (fun b => parseHexAux l₂ b) := by
  induction l₁ generalizing a with
  | nil => simp [parseHexAux]
  | cons c cs ih =>
    simp only [List.cons_append, parseHexAux]
    cases hexVal c with
    | none => rfl
    | some v => exact ih _

theorem parseHexAux_toHexFix (w n a : Nat) :
    parseHexAux (toHexFix w n) a = some (a * 16 ^ w + n % 16 ^ w) := by
  induction w generalizing n a with
  | zero => simp [toHexFix, parseHexAux, Nat.mod_one]
  | succ w ih =>
    rw [toHexFix, parseHexAux_append, ih, Option.some_bind]
    simp only [parseHexAux, hexVal_hexChar (Nat.mod_lt n (by norm_num))]
    have h16 : (16 : Nat) ^ (w + 1) = 16 * 16 ^ w := by ring
    have hmod : n % 16 ^ (w + 1) = n % 16 + 16 * (n / 16 % 16 ^ w) := by
      rw [h16]
      exact Nat.mod_mul
    rw [hmod]
    congr 1
    ring

theorem parseHex_toHexFix {w n : Nat} (hw : 0 < w) (hn : n < 16 ^ w) :
    parseHex (toHexFix w n) = some n := by
  have hlen : (toHexFix w n).length = w := toHexFix_length w n
  have hne : toHexFix w n ≠ [] := by
    intro h
    rw [h] at hlen
    simp at hlen
    omega
  match hl : toHexFix w n with
  | [] => exact absurd hl hne
  | c :: cs =>
    have := parseHexAux_toHexFix w n 0
    rw [hl] at this
    rw [parseHex, this, Nat.zero_mul, Nat.zero_add, Nat.mod_eq_of_lt hn]

theorem pairUp_length : ∀ l : List (List Rec),
    (pairUp l).length = (l.length + 1) / 2
  | [] => by simp [pairUp]
  | [a] => by simp [pairUp]
  | a :: b :: rest => by
    simp only [pairUp, List.length_cons, pairUp_length rest]
    omega

/-- C4: Cursor construction fails with the no-sources error when the tag
index resolves the Sources expression to an empty journal set, and with the
too-many-sources error when it exceeds the cap of 50 journals; in both cases
no cursor is returned. -/
theorem newCursor_source_guards (st : State) (srcs : List (Str × Str))
    (streams : Str → List JRec) :
    (srcs = [] → newCursor st srcs streams = .error .noSources) ∧
    (cMaxSources < srcs.length →
      newCursor st srcs streams = .error .tooManySources) := by
  constructor
  · intro h
    subst h
    rfl
  · intro h
    have hlen : srcs.length ≠ 0 := by
      intro h0
      rw [h0] at h
      exact absurd h (by simp [cMaxSources])
    rw [newCursor, if_neg hlen, if_pos h]

/-- Witness for `newCursor_source_guards` at concrete inputs: the empty
source set and a 51-element source set. -/
theorem newCursor_source_guards_witness :
    newCursor ⟨1, [], [], []⟩ [] (fun _ => []) = .error .noSources ∧
    newCursor ⟨1, [], [], []⟩ (List.replicate 51 ([], []))
      (fun _ => []) = .error .tooManySources :=
  ⟨(newCursor_source_guards ⟨1, [], [], []⟩ [] (fun _ => [])).1 rfl,
   (newCursor_source_guards ⟨1, [], [], []⟩ (List.replicate 51 ([], []))
      (fun _ => [])).2 (by decide)⟩

/-- Case analysis of `applyPos`: the three corner values and the fallthrough
to the position-map parser. -/
theorem applyPos_corner_spec (cur : Cursor) :
    (cur.state.Pos.map Char.toLower = strOf "tail" →
      applyPos cur = .ok (setAllPos cur ⟨0xFFFFFFFFFFFFFFFF, 0xFFFFFFFF⟩)) ∧
    (cur.state.Pos.map Char.toLower = strOf "head" ∨ cur.state.Pos = [] →
      applyPos cur = .ok (setAllPos cur ⟨0, 0⟩)) ∧
    (cur.state.Pos.map Char.toLower ≠ strOf "tail" →
      cur.state.Pos.map Char.toLower ≠ strOf "head" →
      cur.state.Pos ≠ [] →
      applyPos cur = applyStatePos cur) := by
  refine ⟨?_, ?_, ?_⟩
  · intro h
    rw [applyPos, applyCornerPos]
    simp only [h, if_pos rfl]
    rfl
  · intro h
    rw [applyPos, applyCornerPos]
    rcases h with h | h
    · have hne : cur.state.Pos.map Char.toLower ≠ strOf "tail" := by
        rw [h]
        decide
      simp only [if_neg hne, h, if_pos rfl]
      rfl
    · have hmap : cur.state.Pos.map Char.toLower = [] := by
        rw [h]
        rfl
      have hne : cur.state.Pos.map Char.toLower ≠ strOf "tail" := by
        rw [hmap]
        decide
      have hne2 : cur.state.Pos.map Char.toLower ≠ strOf "head" := by
        rw [hmap]
        decide
      simp only [if_neg hne, if_neg hne2, hmap, if_pos rfl]
      rfl
  · intro h1 h2 h3
    have h3' : cur.state.Pos.map Char.toLower ≠ [] := by
      intro h
      exact h3 (List.map_eq_nil_iff.mp h)
    rw [applyPos, applyCornerPos]
    simp only [if_neg h1, if_neg h2, if_neg h3']
    simp

/-- C5: at construction a position equal case-insensitively to "tail" seeks
every journal iterator to the sentinel `(0xFFFFFFFFFFFFFFFF, 0xFFFFFFFF)`,
"head" or the empty string seeks every iterator to `(0, 0)`, and any other
value is handed to the per-journal position-map parser. -/
theorem corner_pos_at_construction (cur : Cursor) :
    (cur.state.Pos.map Char.toLower = strOf "tail" →
      applyPos cur = .ok (setAllPos cur ⟨0xFFFFFFFFFFFFFFFF, 0xFFFFFFFF⟩)) ∧
    (cur.state.Pos.map Char.toLower = strOf "head" ∨ cur.state.Pos = [] →
      applyPos cur = .ok (setAllPos cur ⟨0, 0⟩)) ∧
    (cur.state.Pos.map Char.toLower ≠ strOf "tail" →
      cur.state.Pos.map Char.toLower ≠ strOf "head" →
      cur.state.Pos ≠ [] →
      applyPos cur = applyStatePos cur) :=
  applyPos_corner_spec cur

/-- Witness for `corner_pos_at_construction`: a cursor whose position is the
mixed-case string "TaIl" has every iterator seeked to the tail sentinel. -/
theorem corner_pos_at_construction_witness :
    applyPos ⟨⟨3, [], [], strOf "TaIl"⟩, [(strOf "j", ⟨[], ⟨4, 5⟩, false, false⟩)]⟩ =
      .ok (setAllPos ⟨⟨3, [], [], strOf "TaIl"⟩,
        [(strOf "j", ⟨[], ⟨4, 5⟩, false, false⟩)]⟩ ⟨0xFFFFFFFFFFFFFFFF, 0xFFFFFFFF⟩) :=
  (corner_pos_at_construction _).1 (by decide)

/-- C10: `ApplyState` with a corner position value ("head", "tail" or the
empty string, differing from the cursor's current position) fails with a
parse error and leaves the stored position and every journal iterator
unchanged, although these values are accepted at construction. -/
theorem applyState_corner_rejected (cur : Cursor) (st : State)
    (hW : cur.state.Where = st.Where) (hS : cur.state.Sources = st.Sources)
    (hI : cur.state.Id = st.Id)
    (hP : st.Pos = strOf "head" ∨ st.Pos = strOf "tail" ∨ st.Pos = [])
    (hne : cur.state.Pos ≠ st.Pos) :
    (∃ e, ApplyState cur st = (.error e, cur)) ∧
    (∀ cur' : Cursor, cur'.state.Pos = st.Pos →
      ∃ c2, applyPos cur' = .ok c2) := by
  have hguard : ¬(cur.state.Where ≠ st.Where ∨ cur.state.Sources ≠ st.Sources ∨
      cur.state.Id ≠ st.Id) := by
    push_neg
    exact ⟨hW, hS, hI⟩
  have hparse : parseEntries (splitOnChar ':' st.Pos) [] =
      .error (strOf "value doesn't look like journal pos") := by
    rcases hP with h | h | h <;> rw [h] <;> rfl
  constructor
  · refine ⟨strOf "value doesn't look like journal pos", ?_⟩
    rw [ApplyState, if_neg hguard, if_pos hne, applyStatePos]
    simp only [hparse]
  · intro cur' hpos
    rcases hP with h | h | h
    · exact ⟨_, (applyPos_corner_spec cur').2.1 (Or.inl (by rw [hpos, h]; rfl))⟩
    · exact ⟨_, (applyPos_corner_spec cur').1 (by rw [hpos, h]; rfl)⟩
    · exact ⟨_, (applyPos_corner_spec cur').2.1 (Or.inr (by rw [hpos, h]))⟩

/-- Witness for `applyState_corner_rejected` at a concrete cursor and the
corner value "head". -/
theorem applyState_corner_rejected_witness :
    ∃ e, ApplyState ⟨⟨7, strOf "s", strOf "w", strOf "x"⟩,
        [(strOf "j1", ⟨[], ⟨1, 2⟩, false, false⟩)]⟩
        ⟨7, strOf "s", strOf "w", strOf "head"⟩ =
      (.error e, ⟨⟨7, strOf "s", strOf "w", strOf "x"⟩,
        [(strOf "j1", ⟨[], ⟨1, 2⟩, false, false⟩)]⟩) :=
  (applyState_corner_rejected ⟨⟨7, strOf "s", strOf "w", strOf "x"⟩,
      [(strOf "j1", ⟨[], ⟨1, 2⟩, false, false⟩)]⟩
    ⟨7, strOf "s", strOf "w", strOf "head"⟩
    rfl rfl rfl (Or.inl rfl) (by decide)).1

/-- The position a journal descriptor reports after a `Get` has no pending
lazy advance left. -/
theorem resolveJD_pending (jd : JrnlDesc) : (resolveJD jd).pending = false := by
  rw [resolveJD]
  split <;> simp_all

/-- C7: `commit` performs one `Get` first (resolving any pending lazy
advance), materialises the resulting per-journal positions into the returned
state's position string, and releases every journal iterator. -/
theorem commit_get_release (cur : Cursor) :
    (commit cur).1.Pos = collectPosStr (cursorGet cur).jDescs ∧
    ((commit cur).2.jDescs.all (fun q => q.2.released)) = true ∧
    ((commit cur).2.jDescs.all (fun q => !q.2.pending)) = true ∧
    (commit cur).2.jDescs.map (fun q => (q.1, q.2.itPos)) =
      cur.jDescs.map (fun q => (q.1, (resolveJD q.2).itPos)) ∧
    (commit cur).1 = (commit cur).2.state := by
  refine ⟨rfl, ?_, ?_, ?_, rfl⟩
  · simp [commit, releaseAllJDs, cursorGet, List.all_map, Function.comp]
  · simp [commit, releaseAllJDs, cursorGet, List.all_map, Function.comp,
      resolveJD_pending]
  · simp [commit, releaseAllJDs, cursorGet, Function.comp]

/-- C3: `ApplyState` rejects any state whose `Id`, `Sources` or `Where`
differ, leaving the cursor untouched; with a matching state and a different
position, a position that fails to parse leaves the stored position and every
iterator unchanged, while a parsing position is applied by seeking the
mentioned journal iterators; an identical position is a no-op. -/
theorem applyState_transactional (cur : Cursor) (st : State) :
    ((cur.state.Where ≠ st.Where ∨ cur.state.Sources ≠ st.Sources ∨
        cur.state.Id ≠ st.Id) →
      ∃ e, ApplyState cur st = (.error e, cur)) ∧
    (cur.state.Where = st.Where → cur.state.Sources = st.Sources →
      cur.state.Id = st.Id → cur.state.Pos ≠ st.Pos →
      ∀ e, parseEntries (splitOnChar ':' st.Pos) [] = .error e →
        ApplyState cur st = (.error e, cur)) ∧
    (cur.state.Where = st.Where → cur.state.Sources = st.Sources →
      cur.state.Id = st.Id → cur.state.Pos ≠ st.Pos →
      ∀ m, parseEntries (splitOnChar ':' st.Pos) [] = .ok m →
        ApplyState cur st =
          (.ok (), ⟨{ cur.state with Pos := st.Pos }, setPosMap m cur.jDescs⟩)) ∧
    (cur.state.Where = st.Where → cur.state.Sources = st.Sources →
      cur.state.Id = st.Id → cur.state.Pos = st.Pos →
      ApplyState cur st = (.ok (), cur)) := by
  refine ⟨?_, ?_, ?_, ?_⟩
  · intro h
    exact ⟨_, by rw [ApplyState, if_pos h]⟩
  · intro hW hS hI hne e hparse
    have hguard : ¬(cur.state.Where ≠ st.Where ∨ cur.state.Sources ≠ st.Sources ∨
        cur.state.Id ≠ st.Id) := by
      push_neg
      exact ⟨hW, hS, hI⟩
    rw [ApplyState, if_neg hguard, if_pos hne, applyStatePos]
    simp only [hparse]
  · intro hW hS hI hne m hparse
    have hguard : ¬(cur.state.Where ≠ st.Where ∨ cur.state.Sources ≠ st.Sources ∨
        cur.state.Id ≠ st.Id) := by
      push_neg
      exact ⟨hW, hS, hI⟩
    rw [ApplyState, if_neg hguard, if_pos hne, applyStatePos]
    simp only [hparse]
  · intro hW hS hI hP
    have hguard : ¬(cur.state.Where ≠ st.Where ∨ cur.state.Sources ≠ st.Sources ∨
        cur.state.Id ≠ st.Id) := by
      push_neg
      exact ⟨hW, hS, hI⟩
    rw [ApplyState, if_neg hguard, if_neg (by simpa using hP)]

/-- Witness for `applyState_transactional`: the mismatch branch at a concrete
cursor and state. -/
theorem applyState_transactional_witness :
    ∃ e, ApplyState ⟨⟨7, strOf "s", strOf "w", strOf "x"⟩, []⟩
        ⟨8, strOf "s", strOf "w", strOf "x"⟩ =
      (.error e, ⟨⟨7, strOf "s", strOf "w", strOf "x"⟩, []⟩) :=
  (applyState_transactional _ _).1 (by decide)

/-! ### Lookup lemmas and the position-string round trip -/

theorem alookup_eq_of_mem {κ α : Type} [DecidableEq κ] {l : List (κ × α)}
    {j : κ} {p : α} (hnd : (l.map Prod.fst).Nodup) (hm : (j, p) ∈ l) :
    alookup l j = some p := by
  induction l with
  | nil => cases hm
  | cons q rest ih =>
    simp only [List.map_cons, List.nodup_cons] at hnd
    rcases List.mem_cons.mp hm with h | h
    · rw [← h, alookup, if_pos rfl]
    · have hne : q.1 ≠ j := by
        intro he
        exact hnd.1 (he ▸ List.mem_map_of_mem Prod.fst h)
      rw [alookup, if_neg hne]
      exact ih hnd.2 h

theorem alookup_map_keyed {α β : Type} (g : Str → α → β)
    (l : List (Str × α)) (j : Str) :
    alookup (l.map (fun q => (q.1, g q.1 q.2))) j =
      (alookup l j).map (g j) := by
  induction l with
  | nil => rfl
  | cons q rest ih =>
    simp only [List.map_cons, alookup]
    split
    · simp_all
    · exact ih

theorem setPosMap_eq_map (m : List (Str × JournalPos))
    (jds : List (Str × JrnlDesc)) :
    setPosMap m jds = jds.map (fun q => (q.1, jdApply m q.1 q.2)) := by
  induction jds with
  | nil => rfl
  | cons q rest ih =>
    simp only [setPosMap] at ih
    simp only [setPosMap, List.map_cons, ih]
    cases h : alookup m q.1 <;> simp [jdApply, h]

/-- C6 (amended): when a per-journal position map is applied, entries naming
journals the cursor does not have are ignored (the journal set is unchanged
and no descriptor appears for them), journals mentioned in the string are
seeked to the parsed position, and journals of the cursor that are not
mentioned retain their current position (they are not reset to head). -/
theorem applyStatePos_unknown_ignored_missing_retained (cur : Cursor)
    (m : List (Str × JournalPos))
    (hparse : parseEntries (splitOnChar ':' cur.state.Pos) [] = .ok m) :
    ∃ c', applyStatePos cur = .ok c' ∧
      c'.jDescs.map Prod.fst = cur.jDescs.map Prod.fst ∧
      (∀ j, alookup cur.jDescs j = none → alookup c'.jDescs j = none) ∧
      (∀ j jd, alookup cur.jDescs j = some jd →
        alookup c'.jDescs j = some (jdApply m j jd)) := by
  have h1 : applyStatePos cur = .ok ⟨cur.state, setPosMap m cur.jDescs⟩ := by
    rw [applyStatePos]
    simp only [hparse]
  refine ⟨_, h1, ?_, ?_, ?_⟩
  · rw [setPosMap_eq_map, List.map_map]
    rfl
  · intro j h
    rw [setPosMap_eq_map, alookup_map_keyed, h]
    rfl
  · intro j jd h
    rw [setPosMap_eq_map, alookup_map_keyed, h]
    rfl

/-- Witness for `applyStatePos_unknown_ignored_missing_retained` at a
concrete cursor: the map mentions journal `a` only; `b` keeps `(3, 4)`. -/
theorem applyStatePos_unknown_ignored_missing_retained_witness :
    ∃ c', applyStatePos ⟨⟨7, [], [], strOf "a=0000000000000005.00000006"⟩,
        [(strOf "a", ⟨[], ⟨1, 2⟩, false, false⟩),
         (strOf "b", ⟨[], ⟨3, 4⟩, false, false⟩)]⟩ = .ok c' ∧
      c'.jDescs.map Prod.fst =
        [(strOf "a", (⟨[], ⟨1, 2⟩, false, false⟩ : JrnlDesc)),
         (strOf "b", ⟨[], ⟨3, 4⟩, false, false⟩)].map Prod.fst ∧
      (∀ j, alookup [(strOf "a", (⟨[], ⟨1, 2⟩, false, false⟩ : JrnlDesc)),
         (strOf "b", ⟨[], ⟨3, 4⟩, false, false⟩)] j = none →
        alookup c'.jDescs j = none) ∧
      (∀ j jd, alookup [(strOf "a", (⟨[], ⟨1, 2⟩, false, false⟩ : JrnlDesc)),
         (strOf "b", ⟨[], ⟨3, 4⟩, false, false⟩)] j = some jd →
        alookup c'.jDescs j =
          some (jdApply [(strOf "a", ⟨5, 6⟩)] j jd)) :=
  applyStatePos_unknown_ignored_missing_retained _ [(strOf "a", ⟨5, 6⟩)] rfl

/-- C6 counterexample: applying the map `a=0000000000000005.00000006` to a
cursor with journals `a` and `b` succeeds, yet journal `b` — not mentioned in
the string — stays at `(3, 4)` instead of defaulting to head `(0, 0)`. -/
theorem missing_journal_not_head_cex :
    (ApplyState ⟨⟨7, strOf "s", strOf "w", strOf "x"⟩,
        [(strOf "a", ⟨[], ⟨1, 2⟩, false, false⟩),
         (strOf "b", ⟨[], ⟨3, 4⟩, false, false⟩)]⟩
        ⟨7, strOf "s", strOf "w", strOf "a=0000000000000005.00000006"⟩).1 =
      .ok () ∧
    alookup (ApplyState ⟨⟨7, strOf "s", strOf "w", strOf "x"⟩,
        [(strOf "a", ⟨[], ⟨1, 2⟩, false, false⟩),
         (strOf "b", ⟨[], ⟨3, 4⟩, false, false⟩)]⟩
        ⟨7, strOf "s", strOf "w", strOf "a=0000000000000005.00000006"⟩).2.jDescs
        (strOf "b") = some ⟨[], ⟨3, 4⟩, false, false⟩ ∧
    (⟨3, 4⟩ : JournalPos) ≠ ⟨0, 0⟩ := by
  refine ⟨rfl, by decide, by decide⟩

theorem not_mem_toHexFix {w n : Nat} {c : Char}
    (hc : c = ':' ∨ c = '=' ∨ c = '.') : c ∉ toHexFix w n := by
  intro hmem
  obtain ⟨m, hm, hcm⟩ := toHexFix_mem_lt hmem
  have := hexChar_ne_sep hm
  rcases hc with h | h | h
  · exact this.1 (h ▸ hcm.symm)
  · exact this.2.1 (h ▸ hcm.symm)
  · exact this.2.2 (h ▸ hcm.symm)

theorem colon_not_mem_posToString (p : JournalPos) : ':' ∉ posToString p := by
  rw [posToString]
  intro hmem
  rcases List.mem_append.mp hmem with h | h
  · exact not_mem_toHexFix (Or.inl rfl) h
  · rcases List.mem_cons.mp h with h | h
    · exact absurd h (by decide)
    · exact not_mem_toHexFix (Or.inl rfl) h

theorem eq_not_mem_posToString (p : JournalPos) : '=' ∉ posToString p := by
  rw [posToString]
  intro hmem
  rcases List.mem_append.mp hmem with h | h
  · exact not_mem_toHexFix (Or.inr (Or.inl rfl)) h
  · rcases List.mem_cons.mp h with h | h
    · exact absurd h (by decide)
    · exact not_mem_toHexFix (Or.inr (Or.inl rfl)) h

theorem parsePos_posToString {p : JournalPos} (h1 : p.CId < 2 ^ 64)
    (h2 : p.Idx < 2 ^ 32) : parsePos (posToString p) = some p := by
  have hdot : '.' ∉ toHexFix 16 p.CId := not_mem_toHexFix (Or.inr (Or.inr rfl))
  have hdot8 : '.' ∉ toHexFix 8 p.Idx := not_mem_toHexFix (Or.inr (Or.inr rfl))
  have hsplit : splitOnChar '.' (posToString p) =
      [toHexFix 16 p.CId, toHexFix 8 p.Idx] := by
    rw [posToString, splitOnChar_append _ hdot, splitOnChar_of_not_mem hdot8]
  have hc : parseHex (toHexFix 16 p.CId) = some p.CId :=
    parseHex_toHexFix (by norm_num) (by norm_num at h1 ⊢; omega)
  have hi : parseHex (toHexFix 8 p.Idx) = some p.Idx :=
    parseHex_toHexFix (by norm_num) (by norm_num at h2 ⊢; omega)
  rw [parsePos, hsplit]
  simp only [hc, hi]
  rw [if_pos ⟨h1, h2⟩]

theorem colon_not_mem_collectEntry {j : Str} (jd : JrnlDesc) (hj : ':' ∉ j) :
    ':' ∉ collectEntry j jd := by
  rw [collectEntry]
  intro hmem
  rcases List.mem_append.mp hmem with h | h
  · exact hj h
  · rcases List.mem_cons.mp h with h | h
    · exact absurd h (by decide)
    · exact colon_not_mem_posToString jd.itPos h

theorem splitOnChar_collectPosStr : ∀ jds : List (Str × JrnlDesc),
    jds ≠ [] → (∀ q ∈ jds, ':' ∉ q.1) →
    splitOnChar ':' (collectPosStr jds) =
      jds.map (fun q => collectEntry q.1 q.2)
  | [], h, _ => absurd rfl h
  | [q], _, hwf => by
    rw [collectPosStr,
      splitOnChar_of_not_mem (colon_not_mem_collectEntry q.2 (hwf q (by simp)))]
    rfl
  | q :: q2 :: rest, _, hwf => by
    have hrec := splitOnChar_collectPosStr (q2 :: rest) (List.cons_ne_nil q2 rest)
      (fun r hr => hwf r (List.mem_cons_of_mem q hr))
    show splitOnChar ':'
        (collectEntry q.1 q.2 ++ ':' :: collectPosStr (q2 :: rest)) = _
    rw [splitOnChar_append _ (colon_not_mem_collectEntry q.2 (hwf q (by simp))),
      hrec]
    rfl

theorem splitOnChar_collectEntry {j : Str} (jd : JrnlDesc) (hj : '=' ∉ j) :
    splitOnChar '=' (collectEntry j jd) = [j, posToString jd.itPos] := by
  rw [collectEntry, splitOnChar_append _ hj,
    splitOnChar_of_not_mem (eq_not_mem_posToString jd.itPos)]

theorem parseEntries_collect : ∀ (jds : List (Str × JrnlDesc))
    (m0 : List (Str × JournalPos)),
    (∀ q ∈ jds, '=' ∉ q.1) →
    (∀ q ∈ jds, q.2.itPos.CId < 2 ^ 64 ∧ q.2.itPos.Idx < 2 ^ 32) →
    parseEntries (jds.map (fun q => collectEntry q.1 q.2)) m0 =
      .ok ((jds.map (fun q => (q.1, q.2.itPos))).reverse ++ m0)
  | [], m0, _, _ => rfl
  | q :: rest, m0, hwf, hb => by
    have hsp := splitOnChar_collectEntry q.2 (hwf q (by simp))
    have hpp := parsePos_posToString (hb q (by simp)).1 (hb q (by simp)).2
    rw [List.map_cons, parseEntries]
    simp only [hsp, hpp]
    rw [parseEntries_collect rest ((q.1, q.2.itPos) :: m0)
      (fun r hr => hwf r (List.mem_cons_of_mem q hr))
      (fun r hr => hb r (List.mem_cons_of_mem q hr))]
    simp

theorem setPosMap_roundtrip (m : List (Str × JournalPos)) :
    ∀ (jds2 jds : List (Str × JrnlDesc)),
    jds2.map Prod.fst = jds.map Prod.fst →
    (∀ q ∈ jds, alookup m q.1 = some q.2.itPos) →
    (setPosMap m jds2).map (fun q => (q.1, q.2.itPos)) =
      jds.map (fun q => (q.1, q.2.itPos))
  | [], jds, hkeys, _ => by
    have : jds = [] := by
      cases jds with
      | nil => rfl
      | cons a l => simp at hkeys
    rw [this]
    rfl
  | q2 :: rest2, jds, hkeys, hm => by
    cases jds with
    | nil => simp at hkeys
    | cons q rest =>
      simp only [List.map_cons, List.cons.injEq] at hkeys
      have hq : alookup m q2.1 = some q.2.itPos := hkeys.1 ▸ hm q (by simp)
      rw [setPosMap, List.map_cons]
      simp only [hq, List.map_cons]
      have ih := setPosMap_roundtrip m rest2 rest hkeys.2
        (fun r hr => hm r (List.mem_cons_of_mem q hr))
      rw [setPosMap] at ih
      rw [ih]
      simp [hkeys.1]

/-- C1: committing a cursor and parsing the produced position string back
(through `applyStatePos`, on a cursor over the same journals) restores every
journal iterator to exactly the position `commit` captured — the position
after the last record the first cursor read, its pending lazy advance having
been resolved by `commit`'s `Get`. -/
theorem commit_roundtrip (cur : Cursor) (jds2 : List (Str × JrnlDesc))
    (st2 : State)
    (hkeys : jds2.map Prod.fst = cur.jDescs.map Prod.fst)
    (hnodup : (cur.jDescs.map Prod.fst).Nodup)
    (hwf : ∀ q ∈ cur.jDescs, ':' ∉ q.1 ∧ '=' ∉ q.1)
    (hbound : ∀ q ∈ cur.jDescs, (resolveJD q.2).itPos.CId < 2 ^ 64 ∧
      (resolveJD q.2).itPos.Idx < 2 ^ 32)
    (hne : cur.jDescs ≠ []) :
    ∃ c', applyStatePos ⟨{ st2 with Pos := (commit cur).1.Pos }, jds2⟩ =
        .ok c' ∧
      c'.jDescs.map (fun q => (q.1, q.2.itPos)) =
        (cursorGet cur).jDescs.map (fun q => (q.1, q.2.itPos)) := by
  set gds := (cursorGet cur).jDescs with hgds
  have hgkeys : gds.map Prod.fst = cur.jDescs.map Prod.fst := by
    rw [hgds, cursorGet]
    simp
  have hgne : gds ≠ [] := by
    rw [hgds, cursorGet]
    simpa using hne
  have hgwf : ∀ q ∈ gds, ':' ∉ q.1 ∧ '=' ∉ q.1 := by
    rw [hgds, cursorGet]
    intro q hq
    simp only [List.mem_map] at hq
    obtain ⟨r, hr, hrq⟩ := hq
    exact hrq ▸ hwf r hr
  have hgb : ∀ q ∈ gds, q.2.itPos.CId < 2 ^ 64 ∧ q.2.itPos.Idx < 2 ^ 32 := by
    rw [hgds, cursorGet]
    intro q hq
    simp only [List.mem_map] at hq
    obtain ⟨r, hr, hrq⟩ := hq
    exact hrq ▸ hbound r hr
  have hpos : (commit cur).1.Pos = collectPosStr gds := rfl
  have hsplit := splitOnChar_collectPosStr gds hgne (fun q hq => (hgwf q hq).1)
  have hparse := parseEntries_collect gds [] (fun q hq => (hgwf q hq).2) hgb
  set m := (gds.map (fun q => (q.1, q.2.itPos))).reverse ++ [] with hm
  have hnd2 : (m.map Prod.fst).Nodup := by
    rw [hm]
    simp only [List.append_nil, List.map_reverse, List.nodup_reverse,
      List.map_map]
    have hfst : gds.map (Prod.fst ∘ fun (q : Str × JrnlDesc) =>
        (q.1, q.2.itPos)) = gds.map Prod.fst := rfl
    rw [hfst, hgkeys]
    exact hnodup
  have hlookup : ∀ q ∈ gds, alookup m q.1 = some q.2.itPos := by
    intro q hq
    apply alookup_eq_of_mem hnd2
    rw [hm]
    simp only [List.append_nil, List.mem_reverse]
    exact List.mem_map_of_mem (fun q => (q.1, q.2.itPos)) hq
  have happ : applyStatePos ⟨{ st2 with Pos := (commit cur).1.Pos }, jds2⟩ =
      .ok ⟨{ st2 with Pos := (commit cur).1.Pos }, setPosMap m jds2⟩ := by
    rw [applyStatePos]
    simp only [hpos, hsplit, hparse, hm]
  refine ⟨_, happ, ?_⟩
  exact setPosMap_roundtrip m jds2 gds (hkeys.trans hgkeys.symm) hlookup

/-- Witness for `commit_roundtrip`: a two-journal cursor with a pending lazy
advance on `j1`; the committed string restores the resolved positions on a
fresh cursor. -/
theorem commit_roundtrip_witness :
    ∃ c', applyStatePos ⟨⟨9, [], [],
        (commit ⟨⟨9, [], [], strOf "x"⟩,
          [(strOf "j1", ⟨[], ⟨1, 2⟩, true, false⟩),
           (strOf "j2", ⟨[], ⟨3, 4⟩, false, false⟩)]⟩).1.Pos⟩,
        [(strOf "j1", ⟨[], ⟨0, 0⟩, false, false⟩),
         (strOf "j2", ⟨[], ⟨0, 0⟩, false, false⟩)]⟩ = .ok c' ∧
      c'.jDescs.map (fun q => (q.1, q.2.itPos)) =
        (cursorGet ⟨⟨9, [], [], strOf "x"⟩,
          [(strOf "j1", ⟨[], ⟨1, 2⟩, true, false⟩),
           (strOf "j2", ⟨[], ⟨3, 4⟩, false, false⟩)]⟩).jDescs.map
          (fun q => (q.1, q.2.itPos)) :=
  commit_roundtrip ⟨⟨9, [], [], strOf "x"⟩,
      [(strOf "j1", ⟨[], ⟨1, 2⟩, true, false⟩),
       (strOf "j2", ⟨[], ⟨3, 4⟩, false, false⟩)]⟩
    [(strOf "j1", ⟨[], ⟨0, 0⟩, false, false⟩),
     (strOf "j2", ⟨[], ⟨0, 0⟩, false, false⟩)]
    ⟨9, [], [], strOf "x"⟩ (by decide) (by decide) (by decide) (by decide)
    (by decide)

/-! ### Merge ordering -/

theorem strLtB_irrefl : ∀ a : Str, strLtB a a = false
  | [] => rfl
  | c :: cs => by
    simp only [strLtB, lt_irrefl, if_false]
    exact strLtB_irrefl cs

theorem strLtB_asymm_eq : ∀ a b : Str, strLtB a b = false → strLtB b a = false →
    a = b
  | [], [], _, _ => rfl
  | [], _ :: _, h, _ => by simp [strLtB] at h
  | _ :: _, [], _, h => by simp [strLtB] at h
  | a :: as, b :: bs, h1, h2 => by
    simp only [strLtB] at h1 h2
    by_cases hab : a < b
    · rw [if_pos hab] at h1
      cases h1
    · by_cases hba : b < a
      · rw [if_pos hba] at h2
        cases h2
      · rw [if_neg hab, if_neg hba] at h1
        rw [if_neg hba, if_neg hab] at h2
        have hc : a = b := le_antisymm (le_of_not_lt hba) (le_of_not_lt hab)
        rw [hc, strLtB_asymm_eq as bs h1 h2]

theorem posLeB_total (a b : JournalPos) (h : posLeB a b = false) :
    posLeB b a = true := by
  simp only [posLeB, Bool.or_eq_false_iff, Bool.and_eq_false_iff,
    decide_eq_false_iff_not, Bool.or_eq_true, Bool.and_eq_true,
    decide_eq_true_eq] at h ⊢
  omega

theorem getEarliest_total (a b : Rec) (h : getEarliest a b = false) :
    getEarliest b a = true := by
  rw [getEarliest] at h ⊢
  rcases Bool.or_eq_false_iff.mp h with ⟨hts, hrest⟩
  have hts' : ¬a.ev.ts < b.ev.ts := of_decide_eq_false hts
  by_cases heq : a.ev.ts = b.ev.ts
  · have hrest' : (strLtB a.tags b.tags ||
        (decide (a.tags = b.tags) && posLeB a.rpos b.rpos)) = false := by
      rcases Bool.and_eq_false_iff.mp hrest with h1 | h1
      · rw [decide_eq_false_iff_not] at h1
        exact absurd heq h1
      · exact h1
    rcases Bool.or_eq_false_iff.mp hrest' with ⟨hstr, hin⟩
    by_cases htag : a.tags = b.tags
    · have hpos : posLeB a.rpos b.rpos = false := by
        rcases Bool.and_eq_false_iff.mp hin with h1 | h1
        · rw [decide_eq_false_iff_not] at h1
          exact absurd htag h1
        · exact h1
      have hp2 : posLeB b.rpos a.rpos = true := posLeB_total _ _ hpos
      simp [heq.symm, htag.symm, hp2]
    · have hlt : strLtB b.tags a.tags = true := by
        cases hba : strLtB b.tags a.tags
        · exact absurd (strLtB_asymm_eq _ _ hstr hba) htag
        · rfl
      simp [heq.symm, hlt]
  · have hlt : b.ev.ts < a.ev.ts := by omega
    simp [hlt]

theorem earliestOrdered_iff : ∀ l : List Rec,
    earliestOrdered l ↔ earliestOrderedB l = true
  | [] => by simp [earliestOrdered, earliestOrderedB]
  | [a] => by simp [earliestOrdered, earliestOrderedB]
  | a :: b :: rest => by
    rw [earliestOrdered, List.chain'_cons,
      show earliestOrderedB (a :: b :: rest) =
        (getEarliest a b && earliestOrderedB (b :: rest)) from rfl,
      Bool.and_eq_true]
    exact and_congr Iff.rfl (earliestOrdered_iff (b :: rest))

theorem getEarliest_ts {a b : Rec} (h : getEarliest a b = true) :
    a.ev.ts ≤ b.ev.ts := by
  rw [getEarliest] at h
  simp only [Bool.or_eq_true, Bool.and_eq_true, decide_eq_true_eq] at h
  rcases h with h1 | ⟨h1, _⟩
  · exact le_of_lt h1
  · exact le_of_eq h1

theorem head?_mixRecs : ∀ xs ys : List Rec,
    (mixRecs xs ys).head? = xs.head? ∨ (mixRecs xs ys).head? = ys.head?
  | [], ys => Or.inr (by simp [mixRecs])
  | x :: xs, [] => Or.inl (by simp [mixRecs])
  | x :: xs, y :: ys => by
    rw [mixRecs]
    by_cases h : getEarliest x y
    · rw [if_pos h]
      exact Or.inl rfl
    · rw [if_neg h]
      exact Or.inr rfl

theorem chain'_mixRecs : ∀ xs ys : List Rec, earliestOrdered xs →
    earliestOrdered ys → earliestOrdered (mixRecs xs ys)
  | [], ys, _, hy => by
    rw [show mixRecs [] ys = ys by simp [mixRecs]]
    exact hy
  | x :: xs, [], hx, _ => by
    rw [show mixRecs (x :: xs) [] = x :: xs by simp [mixRecs]]
    exact hx
  | x :: xs, y :: ys, hx, hy => by
    rw [earliestOrdered] at hx hy ⊢
    rw [mixRecs]
    by_cases h : getEarliest x y = true
    · rw [if_pos h]
      rcases List.chain'_cons'.mp hx with ⟨hxh, hx'⟩
      refine List.chain'_cons'.mpr ⟨?_, chain'_mixRecs xs (y :: ys) hx' hy⟩
      intro z hz
      rcases head?_mixRecs xs (y :: ys) with hh | hh
      · exact hxh z (hh ▸ hz)
      · rw [hh] at hz
        simp only [List.head?_cons, Option.mem_def, Option.some.injEq] at hz
        rw [hz] at h
        exact h
    · have hf : getEarliest x y = false := by simpa using h
      rw [if_neg h]
      rcases List.chain'_cons'.mp hy with ⟨hyh, hy'⟩
      refine List.chain'_cons'.mpr
        ⟨?_, chain'_mixRecs (x :: xs) ys hx hy'⟩
      intro z hz
      rcases head?_mixRecs (x :: xs) ys with hh | hh
      · rw [hh] at hz
        simp only [List.head?_cons, Option.mem_def, Option.some.injEq] at hz
        rw [← hz]
        exact getEarliest_total x y hf
      · exact hyh z (hh ▸ hz)
termination_by xs ys => xs.length + ys.length

theorem chain'_pairUp : ∀ ls : List (List Rec),
    (∀ l ∈ ls, earliestOrdered l) → ∀ l ∈ pairUp ls, earliestOrdered l
  | [], _, l, hl => absurd hl (by simp [pairUp])
  | [a], h, l, hl => by
    rw [show pairUp [a] = [a] from rfl] at hl
    simp only [List.mem_singleton] at hl
    exact hl ▸ h a (by simp)
  | a :: b :: rest, h, l, hl => by
    rw [show pairUp (a :: b :: rest) = mixRecs a b :: pairUp rest from rfl] at hl
    rcases List.mem_cons.mp hl with hl | hl
    · exact hl ▸ chain'_mixRecs a b (h a (by simp)) (h b (by simp))
    · exact chain'_pairUp rest
        (fun r hr => h r (List.mem_cons_of_mem a (List.mem_cons_of_mem b hr)))
        l hl

theorem chain'_tourn : ∀ ls : List (List Rec),
    (∀ l ∈ ls, earliestOrdered l) → earliestOrdered (tourn ls)
  | [], _ => by
    rw [earliestOrdered, show tourn [] = [] by simp [tourn]]
    exact List.chain'_nil
  | [x], h => by
    rw [show tourn [x] = x by simp [tourn]]
    exact h x (by simp)
  | a :: b :: rest, h => by
    rw [show tourn (a :: b :: rest) = tourn (mixRecs a b :: pairUp rest) by
      rw [tourn]]
    apply chain'_tourn
    intro l hl
    rcases List.mem_cons.mp hl with hl | hl
    · exact hl ▸ chain'_mixRecs a b (h a (by simp)) (h b (by simp))
    · exact chain'_pairUp rest
        (fun r hr => h r (List.mem_cons_of_mem a (List.mem_cons_of_mem b hr)))
        l hl
termination_by ls => ls.length
decreasing_by
  simp only [List.length_cons, pairUp_length]
  omega

/-- C2: a cursor over `N ≥ 1` journal iterators (each delivering its records
in `GetEarliest` order) delivers a stream that is `GetEarliest`-sorted —
monotonically non-decreasing in `ts`, ties broken by smaller tag line then
smaller journal position; a single source bypasses the tournament and the
iterator is the tag-line-wrapped journal iterator itself. -/
theorem merge_ordering (st : State) (srcs : List (Str × Str))
    (streams : Str → List JRec)
    (hne : srcs ≠ []) (hle : srcs.length ≤ cMaxSources) (hpos : st.Pos = [])
    (hsorted : ∀ q ∈ srcs, earliestOrdered (wrapTags q.1 (streams q.2))) :
    (∃ cur, newCursor st srcs streams = .ok (cur, cursorMerged srcs streams)) ∧
    earliestOrdered (cursorMerged srcs streams) ∧
    List.Chain' (fun a b => a.ev.ts ≤ b.ev.ts) (cursorMerged srcs streams) ∧
    (∀ tg src, srcs = [(tg, src)] →
      cursorMerged srcs streams = wrapTags tg (streams src)) := by
  have hits : ∀ l ∈ cursorIts srcs streams, earliestOrdered l := by
    intro l hl
    rw [cursorIts] at hl
    obtain ⟨q, hq, hql⟩ := List.mem_map.mp hl
    exact hql ▸ hsorted q hq
  have hord : earliestOrdered (cursorMerged srcs streams) := by
    rw [cursorMerged]
    split
    · rename_i hlen
      match srcs, hlen with
      | [q], _ =>
        exact hits (wrapTags q.1 (streams q.2)) (by simp [cursorIts])
    · exact chain'_tourn _ hits
  refine ⟨?_, hord, ?_, ?_⟩
  · refine ⟨setAllPos ⟨st, mkDescs srcs⟩ ⟨0, 0⟩, ?_⟩
    have h0 : srcs.length ≠ 0 := fun h => hne (List.length_eq_zero.mp h)
    have h50 : ¬cMaxSources < srcs.length := not_lt.mpr hle
    rw [newCursor, if_neg h0, if_neg h50]
    have hap : applyPos ⟨st, mkDescs srcs⟩ =
        .ok (setAllPos ⟨st, mkDescs srcs⟩ ⟨0, 0⟩) :=
      (applyPos_corner_spec ⟨st, mkDescs srcs⟩).2.1 (Or.inr hpos)
    simp only [hap]
    rfl
  · exact List.Chain'.imp (fun a b h => getEarliest_ts h) hord
  · intro tg src hsrcs
    subst hsrcs
    rfl

/-- C2 counterexample: timestamps are caller-supplied and a journal need not
be time-ordered; a single-source cursor over a journal whose records carry
decreasing timestamps delivers them in journal order, so the output is not
monotonically non-decreasing in `ts` without a per-journal ordering premise. -/
theorem merge_ordering_unsorted_cex :
    newCursor ⟨1, [], [], []⟩ [(strOf "a", strOf "j")]
      (fun _ => [⟨⟨5, []⟩, ⟨0, 0⟩⟩, ⟨⟨1, []⟩, ⟨0, 1⟩⟩]) =
      .ok (⟨⟨1, [], [], []⟩, [(strOf "j", ⟨strOf "a", ⟨0, 0⟩, false, false⟩)]⟩,
        [⟨⟨5, []⟩, strOf "a", ⟨0, 0⟩⟩, ⟨⟨1, []⟩, strOf "a", ⟨0, 1⟩⟩]) ∧
    ¬ List.Chain' (fun a b => a.ev.ts ≤ b.ev.ts)
      [(⟨⟨5, []⟩, strOf "a", ⟨0, 0⟩⟩ : Rec), ⟨⟨1, []⟩, strOf "a", ⟨0, 1⟩⟩] := by
  constructor
  · rfl
  · intro h
    have h1 := (List.chain'_cons.mp h).1
    norm_num at h1

/-- Witness for `merge_ordering`: two sources with time-sorted streams. -/
theorem merge_ordering_witness :
    (∃ cur, newCursor ⟨1, [], [], []⟩
        [(strOf "a", strOf "j1"), (strOf "b", strOf "j2")]
        (fun s => if s = strOf "j1" then
            [⟨⟨1, []⟩, ⟨0, 0⟩⟩, ⟨⟨5, []⟩, ⟨0, 1⟩⟩]
          else [⟨⟨2, []⟩, ⟨0, 0⟩⟩]) =
      .ok (cur, cursorMerged [(strOf "a", strOf "j1"), (strOf "b", strOf "j2")]
        (fun s => if s = strOf "j1" then
            [⟨⟨1, []⟩, ⟨0, 0⟩⟩, ⟨⟨5, []⟩, ⟨0, 1⟩⟩]
          else [⟨⟨2, []⟩, ⟨0, 0⟩⟩]))) ∧
    earliestOrdered (cursorMerged [(strOf "a", strOf "j1"), (strOf "b", strOf "j2")]
      (fun s => if s = strOf "j1" then
          [⟨⟨1, []⟩, ⟨0, 0⟩⟩, ⟨⟨5, []⟩, ⟨0, 1⟩⟩]
        else [⟨⟨2, []⟩, ⟨0, 0⟩⟩])) ∧
    List.Chain' (fun a b => a.ev.ts ≤ b.ev.ts)
      (cursorMerged [(strOf "a", strOf "j1"), (strOf "b", strOf "j2")]
        (fun s => if s = strOf "j1" then
            [⟨⟨1, []⟩, ⟨0, 0⟩⟩, ⟨⟨5, []⟩, ⟨0, 1⟩⟩]
          else [⟨⟨2, []⟩, ⟨0, 0⟩⟩])) ∧
    (∀ tg src, [(strOf "a", strOf "j1"), (strOf "b", strOf "j2")] = [(tg, src)] →
      cursorMerged [(strOf "a", strOf "j1"), (strOf "b", strOf "j2")]
        (fun s => if s = strOf "j1" then
            [⟨⟨1, []⟩, ⟨0, 0⟩⟩, ⟨⟨5, []⟩, ⟨0, 1⟩⟩]
          else [⟨⟨2, []⟩, ⟨0, 0⟩⟩]) = wrapTags tg
          ((fun s => if s = strOf "j1" then
              [⟨⟨1, []⟩, ⟨0, 0⟩⟩, ⟨⟨5, []⟩, ⟨0, 1⟩⟩]
            else [⟨⟨2, []⟩, ⟨0, 0⟩⟩]) src)) :=
  merge_ordering ⟨1, [], [], []⟩
    [(strOf "a", strOf "j1"), (strOf "b", strOf "j2")]
    (fun s => if s = strOf "j1" then
        [⟨⟨1, []⟩, ⟨0, 0⟩⟩, ⟨⟨5, []⟩, ⟨0, 1⟩⟩]
      else [⟨⟨2, []⟩, ⟨0, 0⟩⟩])
    (by decide) (by decide) rfl
    (by
      intro q hq
      fin_cases hq <;> exact (earliestOrdered_iff _).mpr (by decide))

/-! ### Reader selection (locality) -/

theorem getFreeAux_some_eq (off : Int) : ∀ (l : List FReader) (idx ri rd : Nat),
    getFreeAux off l idx (some (ri, rd)) =
      (match bestFree off l with
       | none => some (ri, rd)
       | some (j, dj) => if dj < rd then some (j + idx, dj) else some (ri, rd))
  | [], _, _, _ => rfl
  | fr :: rest, idx, ri, rd => by
    by_cases hf : fr.rstate = FRState.free
    · rw [show getFreeAux off (fr :: rest) idx (some (ri, rd)) =
          (if distance fr.pos off < rd then
            getFreeAux off rest (idx + 1) (some (idx, distance fr.pos off))
          else getFreeAux off rest (idx + 1) (some (ri, rd))) by
        rw [getFreeAux, if_pos hf]]
      rw [show bestFree off (fr :: rest) =
          (match bestFree off rest with
           | none => some (0, distance fr.pos off)
           | some (j, dj) => if dj < distance fr.pos off then some (j + 1, dj)
             else some (0, distance fr.pos off)) by
        rw [bestFree, if_pos hf]]
      rw [getFreeAux_some_eq off rest (idx + 1) idx (distance fr.pos off),
        getFreeAux_some_eq off rest (idx + 1) ri rd]
      cases hb : bestFree off rest with
      | none =>
        by_cases h2 : distance fr.pos off < rd <;> simp [h2] <;> omega
      | some p =>
        obtain ⟨jt, djt⟩ := p
        by_cases h1 : djt < distance fr.pos off <;>
          by_cases h2 : distance fr.pos off < rd <;>
          by_cases h3 : djt < rd <;>
          simp [h1, h2, h3] <;> omega
    · rw [show getFreeAux off (fr :: rest) idx (some (ri, rd)) =
          getFreeAux off rest (idx + 1) (some (ri, rd)) by
        rw [getFreeAux, if_neg hf]]
      rw [show bestFree off (fr :: rest) =
          (bestFree off rest).map (fun p => (p.1 + 1, p.2)) by
        rw [bestFree, if_neg hf]]
      rw [getFreeAux_some_eq off rest (idx + 1) ri rd]
      cases hb : bestFree off rest with
      | none => rfl
      | some p =>
        obtain ⟨jt, djt⟩ := p
        by_cases h3 : djt < rd <;> simp [h3] <;> omega

theorem getFreeAux_none_eq (off : Int) : ∀ (l : List FReader) (idx : Nat),
    getFreeAux off l idx none =
      (bestFree off l).map (fun p => (p.1 + idx, p.2))
  | [], _ => rfl
  | fr :: rest, idx => by
    by_cases hf : fr.rstate = FRState.free
    · rw [show getFreeAux off (fr :: rest) idx none =
          getFreeAux off rest (idx + 1) (some (idx, distance fr.pos off)) by
        rw [getFreeAux, if_pos hf]]
      rw [show bestFree off (fr :: rest) =
          (match bestFree off rest with
           | none => some (0, distance fr.pos off)
           | some (j, dj) => if dj < distance fr.pos off then some (j + 1, dj)
             else some (0, distance fr.pos off)) by
        rw [bestFree, if_pos hf]]
      rw [getFreeAux_some_eq off rest (idx + 1) idx (distance fr.pos off)]
      cases hb : bestFree off rest with
      | none => simp
      | some p =>
        obtain ⟨jt, djt⟩ := p
        by_cases h1 : djt < distance fr.pos off <;> simp [h1] <;> omega
    · rw [show getFreeAux off (fr :: rest) idx none =
          getFreeAux off rest (idx + 1) none by
        rw [getFreeAux, if_neg hf]]
      rw [show bestFree off (fr :: rest) =
          (bestFree off rest).map (fun p => (p.1 + 1, p.2)) by
        rw [bestFree, if_neg hf]]
      rw [getFreeAux_none_eq off rest (idx + 1)]
      cases bestFree off rest with
      | none => rfl
      | some p =>
        obtain ⟨jt, djt⟩ := p
        simp <;> omega

theorem bestFree_eq_none_iff (off : Int) : ∀ l : List FReader,
    bestFree off l = none ↔ ∀ fr ∈ l, ¬fr.rstate = FRState.free
  | [] => by simp [bestFree]
  | fr :: rest => by
    by_cases hf : fr.rstate = FRState.free
    · rw [show bestFree off (fr :: rest) =
          (match bestFree off rest with
           | none => some (0, distance fr.pos off)
           | some (j, dj) => if dj < distance fr.pos off then some (j + 1, dj)
             else some (0, distance fr.pos off)) by
        rw [bestFree, if_pos hf]]
      constructor
      · intro h
        exfalso
        cases hb : bestFree off rest with
        | none => rw [hb] at h; cases h
        | some p =>
          rw [hb] at h
          obtain ⟨jt, djt⟩ := p
          simp only at h
          split_ifs at h <;> cases h
      · intro h
        exact absurd hf (h fr (by simp))
    · rw [show bestFree off (fr :: rest) =
          (bestFree off rest).map (fun p => (p.1 + 1, p.2)) by
        rw [bestFree, if_neg hf]]
      rw [Option.map_eq_none', bestFree_eq_none_iff off rest]
      constructor
      · intro h g hg
        rcases List.mem_cons.mp hg with hg | hg
        · exact hg ▸ hf
        · exact h g hg
      · intro h g hg
        exact h g (List.mem_cons_of_mem fr hg)

theorem bestFree_spec (off : Int) : ∀ (l : List FReader) (i d : Nat),
    bestFree off l = some (i, d) →
    ∃ hi : i < l.length, (l.get ⟨i, hi⟩).rstate = FRState.free ∧
      d = distance (l.get ⟨i, hi⟩).pos off ∧
      ∀ j (hj : j < l.length), (l.get ⟨j, hj⟩).rstate = FRState.free →
        (d ≤ distance (l.get ⟨j, hj⟩).pos off ∧
          (j < i → d < distance (l.get ⟨j, hj⟩).pos off))
  | [], i, d, h => by cases h
  | fr :: rest, i, d, h => by
    by_cases hf : fr.rstate = FRState.free
    · rw [show bestFree off (fr :: rest) =
          (match bestFree off rest with
           | none => some (0, distance fr.pos off)
           | some (j, dj) => if dj < distance fr.pos off then some (j + 1, dj)
             else some (0, distance fr.pos off)) by
        rw [bestFree, if_pos hf]] at h
      cases hb : bestFree off rest with
      | none =>
        rw [hb] at h
        simp only [Option.some.injEq, Prod.mk.injEq] at h
        obtain ⟨hi0, hd0⟩ := h
        subst hi0
        subst hd0
        refine ⟨by simp, hf, rfl, ?_⟩
        intro j hj hfj
        cases j with
        | zero => exact ⟨le_refl _, fun hlt => absurd hlt (by omega)⟩
        | succ j =>
          exfalso
          exact (bestFree_eq_none_iff off rest).mp hb _
            (List.get_mem rest j (by simpa using hj)) hfj
      | some p =>
        obtain ⟨jt, djt⟩ := p
        obtain ⟨hjt, hfree, hd, hmin⟩ := bestFree_spec off rest jt djt hb
        rw [hb] at h
        simp only at h
        split_ifs at h with hlt <;>
          simp only [Option.some.injEq, Prod.mk.injEq] at h
        · obtain ⟨hi0, hd0⟩ := h
          subst hi0
          subst hd0
          refine ⟨by simpa using Nat.succ_lt_succ hjt, by simpa using hfree,
            by simpa using hd, ?_⟩
          intro j hj hfj
          cases j with
          | zero =>
            simp only [List.get] at hfj ⊢
            exact ⟨le_of_lt hlt, fun _ => hlt⟩
          | succ j =>
            have hj' : j < rest.length := by simpa using hj
            have := hmin j hj' (by simpa using hfj)
            exact ⟨by simpa using this.1, fun hlt2 => by
              simpa using this.2 (by omega)⟩
        · obtain ⟨hi0, hd0⟩ := h
          subst hi0
          subst hd0
          refine ⟨by simp, hf, rfl, ?_⟩
          intro j hj hfj
          cases j with
          | zero => exact ⟨le_refl _, fun hlt => absurd hlt (by omega)⟩
          | succ j =>
            have hj' : j < rest.length := by simpa using hj
            have h1 := (hmin j hj' (by simpa using hfj)).1
            have h2 : distance fr.pos off ≤ djt := not_lt.mp hlt
            exact ⟨by simpa using le_trans h2 h1,
              fun hlt2 => absurd hlt2 (by omega)⟩
    · rw [show bestFree off (fr :: rest) =
          (bestFree off rest).map (fun p => (p.1 + 1, p.2)) by
        rw [bestFree, if_neg hf]] at h
      cases hb : bestFree off rest with
      | none => rw [hb] at h; cases h
      | some p =>
        obtain ⟨jt, djt⟩ := p
        obtain ⟨hjt, hfree, hd, hmin⟩ := bestFree_spec off rest jt djt hb
        rw [hb] at h
        simp at h
        obtain ⟨hi0, hd0⟩ := h
        subst hi0
        subst hd0
        refine ⟨by simpa using Nat.succ_lt_succ hjt, by simpa using hfree,
          by simpa using hd, ?_⟩
        intro j hj hfj
        cases j with
        | zero => exact absurd hfj hf
        | succ j =>
          have hj' : j < rest.length := by simpa using hj
          have := hmin j hj' (by simpa using hfj)
          exact ⟨by simpa using this.1, fun hlt2 => by
            simpa using this.2 (by omega)⟩

theorem getFreeIdx_eq (rdrs : List FReader) (off : Int) :
    getFreeIdx rdrs off = (bestFree off rdrs).map Prod.fst := by
  rw [getFreeIdx, getFreeAux_none_eq]
  cases bestFree off rdrs with
  | none => rfl
  | some p => rfl

theorem modifyNth_length {α : Type} (f : α → α) : ∀ (n : Nat) (l : List α),
    (modifyNth f n l).length = l.length
  | n, [] => by cases n <;> rfl
  | 0, x :: xs => rfl
  | n + 1, x :: xs => by
    simp only [modifyNth, List.length_cons, modifyNth_length f n xs]

theorem totalLen_cons (p : Nat × FrPool) (l : List (Nat × FrPool)) :
    totalLen (p :: l) = p.2.rdrs.length + totalLen l := by
  simp [totalLen]

theorem totalLen_aupdate_of_eq {f : FrPool → FrPool}
    (hf : ∀ a, (f a).rdrs.length = a.rdrs.length) :
    ∀ (l : List (Nat × FrPool)) (c : Nat),
    totalLen (aupdate l c f) = totalLen l
  | [], _ => rfl
  | (k, v) :: rest, c => by
    rw [aupdate]
    split
    · rw [totalLen_cons, totalLen_cons]
      simp [hf v]
    · rw [totalLen_cons, totalLen_cons, totalLen_aupdate_of_eq hf rest c]

theorem totalLen_aupdate_of_succ {f : FrPool → FrPool}
    (hf : ∀ a, (f a).rdrs.length = a.rdrs.length + 1) :
    ∀ (l : List (Nat × FrPool)) (c : Nat) (frp : FrPool),
    alookup l c = some frp →
    totalLen (aupdate l c f) = totalLen l + 1
  | [], _, _, h => by cases h
  | (k, v) :: rest, c, frp, h => by
    rw [aupdate]
    rw [alookup] at h
    split
    · rw [totalLen_cons, totalLen_cons]
      dsimp only
      rw [hf v]
      omega
    · rename_i hne
      rw [if_neg hne] at h
      rw [totalLen_cons, totalLen_cons,
        totalLen_aupdate_of_succ hf rest c frp h]
      omega

/-- C8: when the pool is open, the client id registered, and its group holds
at least one free reader, `acquire` hands out the free reader whose buffered
offset has the minimal unsigned distance to the requested offset (ties to the
first reader in the list), without consuming a permit or constructing a
reader; a new reader is constructed — consuming one semaphore permit — only
when no free reader exists. -/
theorem acquire_locality (fdp : FdPool) (cid : Nat) (off : Int) (frp : FrPool)
    (hco : fdp.closed = false)
    (hreg : alookup fdp.frs cid = some frp) :
    ((∃ fr ∈ frp.rdrs, fr.rstate = FRState.free) →
      ∃ i, ∃ hi : i < frp.rdrs.length,
        getFreeIdx frp.rdrs off = some i ∧
        (acquire fdp cid off).1 = AcqRes.reader cid i ∧
        (frp.rdrs.get ⟨i, hi⟩).rstate = FRState.free ∧
        (∀ j (hj : j < frp.rdrs.length),
          (frp.rdrs.get ⟨j, hj⟩).rstate = FRState.free →
          distance (frp.rdrs.get ⟨i, hi⟩).pos off ≤
            distance (frp.rdrs.get ⟨j, hj⟩).pos off ∧
          (j < i → distance (frp.rdrs.get ⟨i, hi⟩).pos off <
            distance (frp.rdrs.get ⟨j, hj⟩).pos off)) ∧
        (acquire fdp cid off).2.sem = fdp.sem ∧
        totalReaders (acquire fdp cid off).2 = totalReaders fdp) ∧
    (∀ c, (acquire fdp cid off).1 = AcqRes.created c →
      getFreeIdx frp.rdrs off = none ∧
      0 < (acquireMid fdp).sem ∧
      (acquire fdp cid off).2.sem + 1 = (acquireMid fdp).sem ∧
      totalReaders (acquire fdp cid off).2 =
        totalReaders (acquireMid fdp) + 1) := by
  constructor
  · intro hfree
    obtain ⟨i, d, hb⟩ : ∃ i d, bestFree off frp.rdrs = some (i, d) := by
      cases hbb : bestFree off frp.rdrs with
      | none =>
        obtain ⟨fr, hmem, hfr⟩ := hfree
        exact absurd hfr ((bestFree_eq_none_iff off frp.rdrs).mp hbb fr hmem)
      | some p =>
        obtain ⟨a, b⟩ := p
        exact ⟨a, b, rfl⟩
    obtain ⟨hi, hfr, hd, hmin⟩ := bestFree_spec off frp.rdrs i d hb
    have hgf : getFreeIdx frp.rdrs off = some i := by
      rw [getFreeIdx_eq, hb]
      rfl
    have hacq : acquire fdp cid off = (AcqRes.reader cid i,
        { fdp with frs := aupdate fdp.frs cid (fun p => { p with rdrs := modifyNth (fun fr => { fr with rstate := FRState.busy }) i p.rdrs }) }) := by
      rw [acquire, if_neg (by rw [hco]; exact Bool.false_ne_true)]
      simp only [hreg, hgf]
    refine ⟨i, hi, hgf, by rw [hacq], hfr, ?_, by rw [hacq], ?_⟩
    · intro j hj hfj
      have := hmin j hj hfj
      rw [← hd]
      exact this
    · rw [hacq, totalReaders, totalReaders]
      exact totalLen_aupdate_of_eq
        (fun a => modifyNth_length _ i a.rdrs) fdp.frs cid
  · intro c hc
    cases hgf : getFreeIdx frp.rdrs off with
    | some i =>
      have hacq : (acquire fdp cid off).1 = AcqRes.reader cid i := by
        rw [acquire, if_neg (by rw [hco]; exact Bool.false_ne_true)]
        simp only [hreg, hgf]
      rw [hacq] at hc
      cases hc
    | none =>
      have hbody : acquire fdp cid off =
          (if 0 < (acquireMid fdp).sem then
            match alookup (acquireMid fdp).frs cid with
            | some _ =>
              (AcqRes.created cid,
                { acquireMid fdp with
                    sem := (acquireMid fdp).sem - 1,
                    frs := aupdate (acquireMid fdp).frs cid (fun p =>
                      { p with rdrs := p.rdrs ++ [⟨0, FRState.busy⟩] }) })
            | none => (AcqRes.errWrongState,
                { acquireMid fdp with sem := (acquireMid fdp).sem - 1 })
          else (AcqRes.blocked,
            { acquireMid fdp with curSize := (acquireMid fdp).curSize - 1 })) := by
        rw [acquire, if_neg (by rw [hco]; exact Bool.false_ne_true)]
        simp only [hreg, hgf]
      by_cases hsem : 0 < (acquireMid fdp).sem
      · rw [if_pos hsem] at hbody
        cases hlk : alookup (acquireMid fdp).frs cid with
        | none =>
          rw [hlk] at hbody
          rw [hbody] at hc
          cases hc
        | some frp2 =>
          rw [hlk] at hbody
          refine ⟨rfl, hsem, ?_, ?_⟩
          · rw [hbody]
            simp only
            omega
          · rw [hbody]
            simp only [totalReaders]
            exact totalLen_aupdate_of_succ (fun a => by simp)
              (acquireMid fdp).frs cid frp2 hlk
      · rw [if_neg hsem] at hbody
        rw [hbody] at hc
        cases hc

/-- Witness for `acquire_locality`: offset 50 selects the free reader at
buffered offset 52 (distance 2) over the one at 10 (distance 40); the busy
reader at 100 is ignored. -/
theorem acquire_locality_witness :
    ∃ i, ∃ hi : i < ([⟨100, FRState.busy⟩, ⟨10, FRState.free⟩,
        ⟨52, FRState.free⟩] : List FReader).length,
      getFreeIdx [⟨100, FRState.busy⟩, ⟨10, FRState.free⟩, ⟨52, FRState.free⟩] 50 =
        some i ∧
      (acquire ⟨2, 2, 0, false, [(1, ⟨[], [⟨100, FRState.busy⟩,
          ⟨10, FRState.free⟩, ⟨52, FRState.free⟩]⟩)]⟩ 1 50).1 =
        AcqRes.reader 1 i ∧
      (([⟨100, FRState.busy⟩, ⟨10, FRState.free⟩,
          ⟨52, FRState.free⟩] : List FReader).get ⟨i, hi⟩).rstate =
        FRState.free ∧
      (∀ j (hj : j < ([⟨100, FRState.busy⟩, ⟨10, FRState.free⟩,
          ⟨52, FRState.free⟩] : List FReader).length),
        (([⟨100, FRState.busy⟩, ⟨10, FRState.free⟩,
            ⟨52, FRState.free⟩] : List FReader).get ⟨j, hj⟩).rstate =
          FRState.free →
        distance (([⟨100, FRState.busy⟩, ⟨10, FRState.free⟩,
            ⟨52, FRState.free⟩] : List FReader).get ⟨i, hi⟩).pos 50 ≤
          distance (([⟨100, FRState.busy⟩, ⟨10, FRState.free⟩,
            ⟨52, FRState.free⟩] : List FReader).get ⟨j, hj⟩).pos 50 ∧
        (j < i → distance (([⟨100, FRState.busy⟩, ⟨10, FRState.free⟩,
            ⟨52, FRState.free⟩] : List FReader).get ⟨i, hi⟩).pos 50 <
          distance (([⟨100, FRState.busy⟩, ⟨10, FRState.free⟩,
            ⟨52, FRState.free⟩] : List FReader).get ⟨j, hj⟩).pos 50)) ∧
      (acquire ⟨2, 2, 0, false, [(1, ⟨[], [⟨100, FRState.busy⟩,
          ⟨10, FRState.free⟩, ⟨52, FRState.free⟩]⟩)]⟩ 1 50).2.sem =
        (⟨2, 2, 0, false, [(1, ⟨[], [⟨100, FRState.busy⟩, ⟨10, FRState.free⟩,
          ⟨52, FRState.free⟩]⟩)]⟩ : FdPool).sem ∧
      totalReaders (acquire ⟨2, 2, 0, false, [(1, ⟨[], [⟨100, FRState.busy⟩,
          ⟨10, FRState.free⟩, ⟨52, FRState.free⟩]⟩)]⟩ 1 50).2 =
        totalReaders ⟨2, 2, 0, false, [(1, ⟨[], [⟨100, FRState.busy⟩,
          ⟨10, FRState.free⟩, ⟨52, FRState.free⟩]⟩)]⟩ :=
  (acquire_locality ⟨2, 2, 0, false, [(1, ⟨[], [⟨100, FRState.busy⟩,
      ⟨10, FRState.free⟩, ⟨52, FRState.free⟩]⟩)]⟩ 1 50
    ⟨[], [⟨100, FRState.busy⟩, ⟨10, FRState.free⟩, ⟨52, FRState.free⟩]⟩
    rfl rfl).1 ⟨⟨10, FRState.free⟩, by decide, rfl⟩

/-! ### FDP capacity invariant -/

theorem cleanUpLoop_len (all : Bool) (rdrs : List FReader) (i cnt : Nat) :
    (cleanUpLoop all rdrs i cnt).2 + (cleanUpLoop all rdrs i cnt).1.length =
      cnt + rdrs.length := by
  rw [cleanUpLoop]
  split
  · rename_i h
    dsimp only
    split
    · exact cleanUpLoop_len all rdrs (i + 1) cnt
    · have hlen : ((rdrs.set i (rdrs.getD (rdrs.length - 1)
          ⟨0, FRState.closed⟩)).dropLast).length = rdrs.length - 1 := by
        simp [List.length_dropLast, List.length_set]
      have hrec := cleanUpLoop_len all ((rdrs.set i (rdrs.getD (rdrs.length - 1)
        ⟨0, FRState.closed⟩)).dropLast) i (cnt + 1)
      rw [hlen] at hrec
      omega
  · rfl
termination_by rdrs.length - i
decreasing_by
  all_goals try simp only [List.length_dropLast, List.length_set]
  all_goals omega

theorem cleanUpLoop_true_len (rdrs : List FReader) (i cnt : Nat) :
    (cleanUpLoop true rdrs i cnt).1.length ≤ i := by
  rw [cleanUpLoop]
  split
  · rename_i h
    dsimp only
    split
    · rename_i hsk
      exact absurd hsk (by simp)
    · exact cleanUpLoop_true_len ((rdrs.set i (rdrs.getD (rdrs.length - 1)
        ⟨0, FRState.closed⟩)).dropLast) i (cnt + 1)
  · rename_i h
    simp only
    omega
termination_by rdrs.length - i
decreasing_by
  simp only [List.length_dropLast, List.length_set]
  omega

theorem totalLen_append (l₁ l₂ : List (Nat × FrPool)) :
    totalLen (l₁ ++ l₂) = totalLen l₁ + totalLen l₂ := by
  simp [totalLen]

theorem totalLen_aremove : ∀ (l : List (Nat × FrPool)) (c : Nat) (frp : FrPool),
    alookup l c = some frp →
    totalLen (aremove l c) + frp.rdrs.length = totalLen l
  | [], _, _, h => by cases h
  | (k, v) :: rest, c, frp, h => by
    rw [aremove]
    rw [alookup] at h
    by_cases hkc : k = c
    · rw [if_pos hkc] at h ⊢
      have hv : v = frp := by
        injection h
      simp only [totalLen_cons, hv]
      omega
    · rw [if_neg hkc] at h ⊢
      simp only [totalLen_cons]
      have := totalLen_aremove rest c frp h
      omega

theorem cleanFrs_len (all : Bool) : ∀ l : List (Nat × FrPool),
    (cleanFrs all l).2 + totalLen (cleanFrs all l).1 = totalLen l
  | [] => by simp [cleanFrs, totalLen]
  | (cid, frp) :: rest => by
    have h1 := cleanUpLoop_len all frp.rdrs 0 0
    have h2 := cleanFrs_len all rest
    rw [show cleanFrs all ((cid, frp) :: rest) =
        (if all then (cleanFrs all rest).1
         else (cid, { frp with rdrs := (cleanUpLoop all frp.rdrs 0 0).1 }) ::
           (cleanFrs all rest).1,
         (cleanUpLoop all frp.rdrs 0 0).2 + (cleanFrs all rest).2) from rfl]
    cases all with
    | true =>
      have h3 := cleanUpLoop_true_len frp.rdrs 0 0
      rw [if_pos rfl]
      simp only [totalLen_cons]
      omega
    | false =>
      rw [if_neg (by simp)]
      simp only [totalLen_cons]
      omega

theorem cleanFrs_true_nil : ∀ l : List (Nat × FrPool),
    (cleanFrs true l).1 = []
  | [] => rfl
  | (cid, frp) :: rest => cleanFrs_true_nil rest

theorem clean_closed (fdp : FdPool) (all : Bool) :
    (clean fdp all).closed = fdp.closed := by
  rw [clean, freeSem]
  split <;> rfl

theorem clean_maxSize (fdp : FdPool) (all : Bool) :
    (clean fdp all).maxSize = fdp.maxSize := by
  rw [clean, freeSem]
  split <;> rfl

theorem clean_total_sem (fdp : FdPool) (all : Bool) (h : fdp.closed = false) :
    totalReaders (clean fdp all) + (clean fdp all).sem =
      totalReaders fdp + fdp.sem := by
  rw [clean, freeSem]
  rw [if_neg (by simp [h])]
  have := cleanFrs_len all fdp.frs
  rw [totalReaders, totalReaders]
  simp only
  omega

theorem clean_total_le (fdp : FdPool) (all : Bool) :
    totalReaders (clean fdp all) ≤ totalReaders fdp := by
  rw [clean, freeSem]
  have := cleanFrs_len all fdp.frs
  rw [totalReaders, totalReaders]
  split <;> simp only <;> omega

theorem FdInv_clean {m : Nat} {f : FdPool} (h : FdInv m f) (all : Bool) :
    FdInv m (clean f all) := by
  obtain ⟨hmax, hopen, hclosed⟩ := h
  refine ⟨by rw [clean_maxSize]; exact hmax, ?_, ?_⟩
  · intro hc
    rw [clean_closed] at hc
    have h1 := clean_total_sem f all hc
    have h2 := hopen hc
    omega
  · intro hc
    rw [clean_closed] at hc
    have h1 := clean_total_le f all
    have h2 := hclosed hc
    omega

theorem FdInv_update_eq {m : Nat} {fdp : FdPool} (h : FdInv m fdp) (cid : Nat)
    (f : FrPool → FrPool) (hf : ∀ a, (f a).rdrs.length = a.rdrs.length) :
    FdInv m { fdp with frs := aupdate fdp.frs cid f } := by
  obtain ⟨hmax, hopen, hclosed⟩ := h
  have ht : totalLen (aupdate fdp.frs cid f) = totalLen fdp.frs :=
    totalLen_aupdate_of_eq hf fdp.frs cid
  refine ⟨hmax, ?_, ?_⟩
  · intro hc
    show totalLen (aupdate fdp.frs cid f) + fdp.sem ≤ m
    rw [ht]
    exact hopen hc
  · intro hc
    show totalLen (aupdate fdp.frs cid f) = 0
    rw [ht]
    exact hclosed hc

theorem FdInv_ite_clean {m : Nat} {f : FdPool} (h : FdInv m f) (c : Prop)
    [Decidable c] : FdInv m (if c then clean f false else f) := by
  split
  · exact FdInv_clean h false
  · exact h

theorem FdInv_acquireMid {m : Nat} {fdp : FdPool} (h : FdInv m fdp) :
    FdInv m (acquireMid fdp) := by
  rw [acquireMid]
  split
  · exact FdInv_clean (show FdInv m { fdp with curSize := fdp.curSize + 1 } from h)
      false
  · exact h

theorem FdInv_sem_dec {m : Nat} {f2 : FdPool} (h : FdInv m f2) :
    FdInv m { f2 with sem := f2.sem - 1 } := by
  obtain ⟨hmax, hopen, hclosed⟩ := h
  refine ⟨hmax, ?_, hclosed⟩
  intro hc
  have h1 := hopen hc
  show totalReaders f2 + (f2.sem - 1) ≤ m
  omega

theorem FdInv_created {m : Nat} {f2 : FdPool} (h : FdInv m f2)
    (hcl2 : f2.closed = false) (hsem : 0 < f2.sem) (cid : Nat) (frp2 : FrPool)
    (hlk : alookup f2.frs cid = some frp2) :
    FdInv m { f2 with sem := f2.sem - 1, frs := aupdate f2.frs cid (fun p => { p with rdrs := p.rdrs ++ [⟨0, FRState.busy⟩] }) } := by
  obtain ⟨hmax, hopen, hclosed⟩ := h
  have ht := totalLen_aupdate_of_succ
    (f := fun p => { p with rdrs := p.rdrs ++ [⟨0, FRState.busy⟩] })
    (fun a => by simp) f2.frs cid frp2 hlk
  refine ⟨hmax, ?_, ?_⟩
  · intro hc
    have h1 := hopen hcl2
    show totalLen (aupdate f2.frs cid (fun p => { p with rdrs := p.rdrs ++ [⟨0, FRState.busy⟩] })) + (f2.sem - 1) ≤ m
    have h2 : totalReaders f2 = totalLen f2.frs := rfl
    omega
  · intro hc
    have hc' : f2.closed = true := hc
    rw [hcl2] at hc'
    cases hc'

theorem clean_true_total (f : FdPool) : totalReaders (clean f true) = 0 := by
  rw [clean, freeSem]
  split
  · show totalLen (cleanFrs true f.frs).1 = 0
    rw [cleanFrs_true_nil]
    rfl
  · show totalLen (cleanFrs true f.frs).1 = 0
    rw [cleanFrs_true_nil]
    rfl

theorem FdInv_close {m : Nat} {fdp : FdPool} (h : FdInv m fdp) :
    FdInv m (clean { fdp with closed := true } true) := by
  refine ⟨by rw [clean_maxSize]; exact h.1, ?_, ?_⟩
  · intro hc
    rw [clean_closed] at hc
    exact absurd (show (true : Bool) = false from hc) (by decide)
  · intro _
    exact clean_true_total _

theorem FdInv_releaseAll {m : Nat} {fdp : FdPool} (h : FdInv m fdp)
    (cid : Nat) (frp : FrPool) (hlk : alookup fdp.frs cid = some frp) :
    FdInv m (freeSem { fdp with frs := aremove fdp.frs cid, curSize := fdp.curSize - (cleanUpLoop true frp.rdrs 0 0).2 } (cleanUpLoop true frp.rdrs 0 0).2) := by
  obtain ⟨hmax, hopen, hclosed⟩ := h
  have hrm := totalLen_aremove fdp.frs cid frp hlk
  have hcnt := cleanUpLoop_len true frp.rdrs 0 0
  have hnil := cleanUpLoop_true_len frp.rdrs 0 0
  rw [freeSem]
  split
  · rename_i hc
    have hc' : fdp.closed = true := hc
    refine ⟨hmax, ?_, ?_⟩
    · intro hco
      have hco' : fdp.closed = false := hco
      rw [hc'] at hco'
      cases hco'
    · intro _
      show totalLen (aremove fdp.frs cid) = 0
      have h0 : totalReaders fdp = 0 := hclosed hc'
      have h1 : totalReaders fdp = totalLen fdp.frs := rfl
      omega
  · rename_i hc
    have hc' : fdp.closed = false := by
      have : ¬fdp.closed = true := hc
      cases hcf : fdp.closed
      · rfl
      · exact absurd hcf this
    have hop := hopen hc'
    have h1 : totalReaders fdp = totalLen fdp.frs := rfl
    refine ⟨hmax, ?_, ?_⟩
    · intro _
      show totalLen (aremove fdp.frs cid) +
        (fdp.sem + (cleanUpLoop true frp.rdrs 0 0).2) ≤ m
      omega
    · intro hco
      have hco' : fdp.closed = true := hco
      rw [hc'] at hco'
      cases hco'

/-- One pool operation preserves the capacity invariant. -/
theorem fdStep_inv {m : Nat} {fdp : FdPool} (op : FdOp) (h : FdInv m fdp) :
    FdInv m (fdStep fdp op) := by
  have hmax := h.1
  have hopen := h.2.1
  have hclosed := h.2.2
  cases op with
  | register cid fname =>
    rw [fdStep, register]
    cases halk : alookup fdp.frs cid with
    | some v => exact h
    | none =>
      refine ⟨hmax, ?_, ?_⟩
      · intro hc
        show totalLen (fdp.frs ++ [(cid, ⟨fname, []⟩)]) + fdp.sem ≤ m
        rw [totalLen_append]
        have h2 : totalLen [(cid, (⟨fname, []⟩ : FrPool))] = 0 := by
          simp [totalLen]
        have h3 := hopen hc
        have h4 : totalReaders fdp = totalLen fdp.frs := rfl
        omega
      · intro hc
        show totalLen (fdp.frs ++ [(cid, ⟨fname, []⟩)]) = 0
        rw [totalLen_append]
        have h2 : totalLen [(cid, (⟨fname, []⟩ : FrPool))] = 0 := by
          simp [totalLen]
        have h3 := hclosed hc
        have h4 : totalReaders fdp = totalLen fdp.frs := rfl
        omega
  | acquire cid off =>
    rw [fdStep, acquire]
    by_cases hcl : fdp.closed = true
    · rw [if_pos hcl]
      exact h
    · have hcl' : fdp.closed = false := by
        cases hcf : fdp.closed
        · rfl
        · exact absurd hcf hcl
      rw [if_neg hcl]
      cases halk : alookup fdp.frs cid with
      | none => exact h
      | some frp =>
        dsimp only
        cases hgf : getFreeIdx frp.rdrs off with
        | some i =>
          exact FdInv_update_eq h cid (fun p => { p with rdrs := modifyNth (fun fr => { fr with rstate := FRState.busy }) i p.rdrs }) (fun a => modifyNth_length _ i a.rdrs)
        | none =>
          have hmid := FdInv_acquireMid h
          have hmidc : (acquireMid fdp).closed = false := by
            rw [acquireMid]
            split
            · rw [clean_closed]
              exact hcl'
            · exact hcl'
          by_cases hsem : 0 < (acquireMid fdp).sem
          · rw [if_pos hsem]
            cases hlk2 : alookup (acquireMid fdp).frs cid with
            | some frp2 =>
              dsimp only
              exact FdInv_created hmid hmidc hsem cid frp2 hlk2
            | none => exact FdInv_sem_dec hmid
          · rw [if_neg hsem]
            exact ⟨hmid.1, hmid.2.1, hmid.2.2⟩
  | release cid idx =>
    rw [fdStep, release]
    cases halk : alookup fdp.frs cid with
    | none => exact h
    | some frp =>
      dsimp only
      split
      · rename_i hidx
        split
        · exact FdInv_ite_clean (FdInv_update_eq h cid (fun p => { p with rdrs := modifyNth (fun fr => { fr with rstate := FRState.free }) idx p.rdrs }) (fun a => modifyNth_length _ idx a.rdrs)) _
        · exact FdInv_update_eq h cid (fun p => { p with rdrs := modifyNth (fun fr => { fr with rstate := FRState.closed }) idx p.rdrs }) (fun a => modifyNth_length _ idx a.rdrs)
      · exact h
  | releaseAll cid =>
    rw [fdStep, releaseAllByCid]
    cases halk : alookup fdp.frs cid with
    | none => exact h
    | some frp => exact FdInv_releaseAll h cid frp halk
  | close =>
    rw [fdStep, Close]
    by_cases hcl : fdp.closed = true
    · rw [if_pos hcl]
      exact h
    · rw [if_neg hcl]
      exact FdInv_close h
  | cleanTick =>
    rw [fdStep]
    exact FdInv_clean h false

theorem liveCount_le_total (fdp : FdPool) : liveCount fdp ≤ totalReaders fdp := by
  rw [liveCount, totalReaders, totalLen]
  apply List.sum_le_sum
  intro p _
  exact List.length_filter_le _ _

/-- C9: along every sequence of pool operations from a fresh pool, the
number of non-closed readers never exceeds `maxSize` (a saturated acquire
blocks instead of creating a reader), and once `Close` has run no non-closed
reader remains. -/
theorem fdpool_capacity_invariant (m : Nat) (ops : List FdOp) (hm : 0 < m) :
    liveCount (ops.foldl fdStep (NewFdPool m)) ≤ m ∧
    ((ops.foldl fdStep (NewFdPool m)).closed = true →
      liveCount (ops.foldl fdStep (NewFdPool m)) = 0) := by
  have hfold : ∀ (l : List FdOp) (f : FdPool), FdInv m f →
      FdInv m (l.foldl fdStep f) := by
    intro l
    induction l with
    | nil => exact fun f hf => hf
    | cons op rest ih =>
      intro f hf
      exact ih (fdStep f op) (fdStep_inv op hf)
  have hinv : FdInv m (ops.foldl fdStep (NewFdPool m)) := by
    apply hfold
    refine ⟨rfl, ?_, ?_⟩
    · intro _
      show totalLen [] + m ≤ m
      simp [totalLen]
    · intro hc
      cases hc
  obtain ⟨hmax, hopen, hclosed⟩ := hinv
  have hlive := liveCount_le_total (ops.foldl fdStep (NewFdPool m))
  constructor
  · by_cases hc : (ops.foldl fdStep (NewFdPool m)).closed = true
    · have := hclosed hc
      omega
    · have hc' : (ops.foldl fdStep (NewFdPool m)).closed = false := by
        cases hcf : (ops.foldl fdStep (NewFdPool m)).closed
        · rfl
        · exact absurd hcf hc
      have := hopen hc'
      omega
  · intro hc
    have := hclosed hc
    omega

/-- Witness for `fdpool_capacity_invariant`: a concrete operation sequence on
a pool of capacity 2, ending in `Close`. -/
theorem fdpool_capacity_invariant_witness :
    liveCount ([FdOp.register 1 (strOf "f"), FdOp.acquire 1 0,
        FdOp.acquire 1 10, FdOp.acquire 1 20, FdOp.release 1 0,
        FdOp.close].foldl fdStep (NewFdPool 2)) ≤ 2 ∧
    (([FdOp.register 1 (strOf "f"), FdOp.acquire 1 0,
        FdOp.acquire 1 10, FdOp.acquire 1 20, FdOp.release 1 0,
        FdOp.close].foldl fdStep (NewFdPool 2)).closed = true →
      liveCount ([FdOp.register 1 (strOf "f"), FdOp.acquire 1 0,
        FdOp.acquire 1 10, FdOp.acquire 1 20, FdOp.release 1 0,
        FdOp.close].foldl fdStep (NewFdPool 2)) = 0) :=
  fdpool_capacity_invariant 2
    [FdOp.register 1 (strOf "f"), FdOp.acquire 1 0, FdOp.acquire 1 10,
      FdOp.acquire 1 20, FdOp.release 1 0, FdOp.close] (by decide)

end Logrange
